import Mathlib

/-!
Verification of the availability and slot-computation engine of the
medplum-provider scheduling UI (SetAvailabilityModal, SchedulePage,
CreateVisit, Calendar).

Shallow embedding conventions, fixed once for the whole file:

* Times of day ("HH:MM" / "HH:MM:SS" strings in the source) are embedded as
  their minute-of-day value in `ℤ`.  All the string manipulations of the
  source (`timeToMinutes`, appending ":00" seconds, `substring(0, 5)`) are
  bijective renotations of that minute value for well-formed inputs, so they
  become the identity here; `minutesToTime` keeps its arithmetic content.
* Durations the source keeps as a fractional number of hours
  (`durationHours`, always minutes divided by 60 for "HH:MM" windows) are
  embedded as the exact number of minutes in `ℤ`; the source's value `x`
  hours corresponds to `60 * x` here.  This is an exact change of scale:
  the only computation that observes the fraction itself is the grouping
  key `Math.round(durationHours * 100)`, embedded as `durKey` below, and
  `durKey_eq_round` proves the embedding computes exactly that rounding.
  Likewise the duration the wire format stores as a `(value, unit)` pair
  ('h' or 'min') is embedded as the denoted number of minutes, so the
  decoder's unit normalization (`unit === 'h' ? dur : dur / 60`) is
  precomposed into the representation.
* Instants (JavaScript `Date`) are embedded as milliseconds since an epoch
  placed at a local midnight that falls on a Sunday, so that
  `setHours(0,0,0,0)` is flooring to a multiple of 86400000 and `getDay()`
  is `(day index) % 7` with 0 = Sunday, matching `DAY_OF_WEEK_MAP`.
  Daylight-saving shifts of the local timezone are not modelled: a calendar
  day is uniformly 86400000 ms.  `Math.floor` on integers divided by a
  positive constant is `Int.fdiv`.
* JavaScript `Map` objects (used by the two grouping passes of the encoder)
  are embedded as association lists with the `Map` update discipline:
  updating an existing key keeps its position, a new key is appended.
  The string keys `` `${a}|${b}` `` are embedded as pairs, which are in
  bijection with the key strings for the values that actually occur.
* Calendar dates ("YYYY-MM-DD" strings) are embedded as a day index (days
  since the epoch); lexicographic comparison of the strings agrees with the
  numeric comparison of the indices.
* Empty-string/undefined form fields (falsy in JavaScript guards) are
  embedded as `Option` with `none` for the falsy values.
-/

/-! ### Days of the week -/

/-- The seven weekday codes `'mon' | ... | 'sun'` of the source. -/
inductive Day : Type
  | mon | tue | wed | thu | fri | sat | sun
deriving DecidableEq

/-- `ORDERED_DAYS` of SetAvailabilityModal: the fixed UI iteration order. -/
def ORDERED_DAYS : List Day := [.mon, .tue, .wed, .thu, .fri, .sat, .sun]

/-- The seven day codes in the order JavaScript `Array.prototype.sort()`
puts their strings: "fri" < "mon" < "sat" < "sun" < "thu" < "tue" < "wed". -/
def ALPHA_DAYS : List Day := [.fri, .mon, .sat, .sun, .thu, .tue, .wed]

/-- Embedding of `days.sort()` (default JavaScript string sort).  On the
duplicate-free day lists the encoder sorts, the sorted result is exactly the
sublist of `ALPHA_DAYS` whose members occur in the input. -/
def sortDays (l : List Day) : List Day := ALPHA_DAYS.filter (fun d => d ∈ l)

/-- `DAY_OF_WEEK_MAP` of SchedulePage: `getDay()` numbering, 0 = Sunday. -/
def dayNumber : Day → ℕ
  | .sun => 0 | .mon => 1 | .tue => 2 | .wed => 3 | .thu => 4 | .fri => 5 | .sat => 6

/-! ### The availability configuration model -/

/-- `TimeWindow` of SetAvailabilityModal: `startTime`/`endTime` "HH:MM"
strings, embedded as minute-of-day values. -/
structure TimeWindow where
  startTime : ℤ
  endTime : ℤ
deriving DecidableEq

/-- `DEFAULT_WINDOW = { startTime: '09:00', endTime: '17:00' }`. -/
def DEFAULT_WINDOW : TimeWindow := ⟨540, 1020⟩

/-- `DaySchedule` of SetAvailabilityModal. -/
structure DaySchedule where
  enabled : Bool
  timeWindows : List TimeWindow
deriving DecidableEq

/-- `WeekSchedule = Record<DayOfWeek, DaySchedule>`. -/
structure WeekSchedule where
  mon : DaySchedule
  tue : DaySchedule
  wed : DaySchedule
  thu : DaySchedule
  fri : DaySchedule
  sat : DaySchedule
  sun : DaySchedule
deriving DecidableEq

/-- Field access `week[day]`. -/
def WeekSchedule.get (w : WeekSchedule) : Day → DaySchedule
  | .mon => w.mon | .tue => w.tue | .wed => w.wed | .thu => w.thu
  | .fri => w.fri | .sat => w.sat | .sun => w.sun

/-- Field update `week[day] = f (week[day])`. -/
def WeekSchedule.update (w : WeekSchedule) (d : Day) (f : DaySchedule → DaySchedule) :
    WeekSchedule :=
  match d with
  | .mon => { w with mon := f w.mon }
  | .tue => { w with tue := f w.tue }
  | .wed => { w with wed := f w.wed }
  | .thu => { w with thu := f w.thu }
  | .fri => { w with fri := f w.fri }
  | .sat => { w with sat := f w.sat }
  | .sun => { w with sun := f w.sun }

/-- The all-days-off week the decoder starts from ("Start with everything
off" in `parseWeekScheduleFromExtension`). -/
def weekAllOff : WeekSchedule :=
  ⟨⟨false, []⟩, ⟨false, []⟩, ⟨false, []⟩, ⟨false, []⟩, ⟨false, []⟩, ⟨false, []⟩, ⟨false, []⟩⟩

/-! ### Time helpers of SetAvailabilityModal -/

/-- `timeWindowDurationHours`, in minutes: end minus start, adding 24h when
the difference is non-positive (windows wrapping past midnight).  The
source's value is this divided by 60. -/
def timeWindowDurationMin (tw : TimeWindow) : ℤ :=
  let diff := tw.endTime - tw.startTime
  if diff ≤ 0 then diff + 24 * 60 else diff

/-- The grouping key component `Math.round(durationHours * 100)` of
`buildAvailabilityExtensions`, computed from the duration in minutes `m`
(so from `durationHours = m / 60`): `round (m / 60 * 100) = ⌊(10m + 3) / 6⌋`.
`durKey_eq_round` below proves this agreement. -/
def durKey (m : ℤ) : ℤ := (10 * m + 3).fdiv 6

/-- `minutesToTime`: `hh = Math.floor(m / 60) % 24`, `mm = m % 60`,
re-expressed as the minute-of-day value `60 * hh + mm` (for the nonnegative
inputs that occur, JavaScript `%` agrees with `emod`, and `m % 60` is
`m - 60 * Math.floor(m / 60)`). -/
def minutesToTime (m : ℤ) : ℤ :=
  60 * ((m.fdiv 60) % 24) + (m - 60 * (m.fdiv 60))

/-- `fhirToTimeWindow`: rebuild a `TimeWindow` from a start time and a
duration (`startMinutes + durationHours * 60` is start plus the duration in
minutes; `substring(0, 5)` of the start string is the identity on minute
values). -/
def fhirToTimeWindow (time : ℤ) (durMin : ℤ) : TimeWindow :=
  ⟨time, minutesToTime (time + durMin)⟩

/-- The `(startMinuteOfDay, durationMinutes)` view of a window used by the
round-trip property (the spec's §3 `TimeWindow`). -/
def windowPair (tw : TimeWindow) : ℤ × ℤ :=
  (tw.startTime, timeWindowDurationMin tw)

/-- The set of `(startMinute, durationMinutes)` pairs of a day's windows. -/
def pairFinset (ds : DaySchedule) : Finset (ℤ × ℤ) :=
  (ds.timeWindows.map windowPair).toFinset

/-- A well-formed minute-of-day value (the embedding of a valid "HH:MM"
string): an integer in `[0, 1440)`. -/
def validTime (t : ℤ) : Prop := 0 ≤ t ∧ t < 1440

instance (t : ℤ) : Decidable (validTime t) := by unfold validTime; infer_instance

/-- A window whose two times are well-formed "HH:MM" values. -/
def validWindow (tw : TimeWindow) : Prop := validTime tw.startTime ∧ validTime tw.endTime

instance (tw : TimeWindow) : Decidable (validWindow tw) := by unfold validWindow; infer_instance

/-- Every window of every day of the week is well-formed (always true of
the UI's `<input type="time">` values). -/
def validWeek (w : WeekSchedule) : Prop :=
  ∀ d ∈ ORDERED_DAYS, ∀ tw ∈ (w.get d).timeWindows, validWindow tw

instance (w : WeekSchedule) : Decidable (validWeek w) := by unfold validWeek; infer_instance

/-! ### Generic insertion-ordered grouping (JavaScript `Map` discipline) -/

/-- Association-list update with the JavaScript `Map` discipline: an
existing key keeps its position and has its value updated in place; a
missing key is appended at the end. -/
def updateOrAppend {K V : Type} [DecidableEq K] (k : K) (f : V → V) (v₀ : V) :
    List (K × V) → List (K × V)
  | [] => [(k, v₀)]
  | p :: rest => if p.1 = k then (p.1, f p.2) :: rest else p :: updateOrAppend k f v₀ rest

/-- Association-list lookup. -/
def alook {K V : Type} [DecidableEq K] (k : K) : List (K × V) → Option V
  | [] => none
  | p :: rest => if p.1 = k then some p.2 else alook k rest

/-- The value a grouping pass produces for one key from the sublist of
inputs carrying that key: the first input initializes the group, the rest
update it. -/
def buildVal {A V : Type} (upd : A → V → V) (init : A → V) : List A → Option V
  | [] => none
  | a :: as => some (as.foldl (fun v a => upd a v) (init a))

/-- A grouping pass over a `Map`: fold the inputs, keyed by `key`,
initializing a fresh group with `init` and folding later inputs into the
existing group with `upd`. -/
def groupFold {A K V : Type} [DecidableEq K] (key : A → K) (upd : A → V → V)
    (init : A → V) (l : List A) : List (K × V) :=
  l.foldl (fun acc a => updateOrAppend (key a) (upd a) (init a) acc) []

/-! ### The encoder `buildAvailabilityExtensions` -/

/-- The `WindowEntry` tuples the encoder flattens the week into
(`durationMin` embeds the source's `durationHours` in minutes). -/
structure WindowEntry where
  day : Day
  startTime : ℤ
  durationMin : ℤ
deriving DecidableEq

/-- Flattening pass of `buildAvailabilityExtensions`, with the day
iteration order as an explicit parameter (the source iterates
`ORDERED_DAYS`; the parameter expresses the spec's order-independence
requirement over the day map's iteration order).  Appending the ":00"
seconds to `tw.startTime` is the identity on minute values. -/
def windowEntries (order : List Day) (w : WeekSchedule) : List WindowEntry :=
  order.flatMap (fun d =>
    let ds := w.get d
    if ds.enabled then
      ds.timeWindows.map (fun tw => ⟨d, tw.startTime, timeWindowDurationMin tw⟩)
    else [])

/-- A group of the first compaction pass: one `(startTime, durationHours)`
key accumulating the days that share that window. -/
structure Group1 where
  startTime : ℤ
  durationMin : ℤ
  days : List Day
deriving DecidableEq

/-- The first pass's `Map` key
`` `${e.startTime}|${Math.round(e.durationHours * 100)}` ``. -/
def key1 (e : WindowEntry) : ℤ × ℤ := (e.startTime, durKey e.durationMin)

/-- First grouping pass: group the flattened window entries by
`(startTime, rounded duration)`, accumulating each key's day list without
duplicates (`if (!existing.days.includes(e.day))`). -/
def groupPass1 (entries : List WindowEntry) : List ((ℤ × ℤ) × Group1) :=
  groupFold key1
    (fun e g => if e.day ∈ g.days then g else { g with days := g.days ++ [e.day] })
    (fun e => ⟨e.startTime, e.durationMin, [e.day]⟩) entries

/-- A group of the second compaction pass: one `(sorted day list, rounded
duration)` key accumulating the start times shared by that day set. -/
structure Group2 where
  days : List Day
  durationMin : ℤ
  times : List ℤ
deriving DecidableEq

/-- The second pass's `Map` key `` `${daysKey}|${durKey}` `` with
`daysKey = g.days.sort().join(',')`. -/
def key2 (g : Group1) : List Day × ℤ := (sortDays g.days, durKey g.durationMin)

/-- Second grouping pass: group the first pass's groups by
`(sorted days, rounded duration)`, accumulating the start times.  The
source sorts `g.days` in place before computing the key and stores a copy
of the sorted list, hence `sortDays` in both positions. -/
def groupPass2 (gs : List Group1) : List ((List Day × ℤ) × Group2) :=
  groupFold key2
    (fun g sg => { sg with times := sg.times ++ [g.startTime] })
    (fun g => ⟨sortDays g.days, g.durationMin, [g.startTime]⟩) gs

/-- One emitted `availability` extension: the
`valueTiming.repeat = { dayOfWeek, timeOfDay, duration, durationUnit: 'h' }`
payload, with the duration held in minutes (wire value `duration / 60`
hours). -/
structure BuiltEntry where
  dayOfWeek : List Day
  timeOfDay : List ℤ
  duration : ℤ
deriving DecidableEq

/-- `buildAvailabilityExtensions` with the day iteration order explicit. -/
def buildAvailabilityExtensionsWith (order : List Day) (w : WeekSchedule) :
    List BuiltEntry :=
  ((groupPass2 ((groupPass1 (windowEntries order w)).map Prod.snd)).map Prod.snd).map
    (fun sg => ⟨sg.days, sg.times, sg.durationMin⟩)

/-- The grouping-and-emission pipeline of `buildAvailabilityExtensions`,
starting from the flattened window entries. -/
def builtOfEntries (l : List WindowEntry) : List BuiltEntry :=
  ((groupPass2 ((groupPass1 l).map Prod.snd)).map Prod.snd).map
    (fun sg => ⟨sg.days, sg.times, sg.durationMin⟩)

/-- `buildAvailabilityExtensions` of SetAvailabilityModal: flatten the
enabled days' windows, group days sharing a window, then group day sets
sharing a duration, and emit one Timing entry per group. -/
def buildAvailabilityExtensions (w : WeekSchedule) : List BuiltEntry :=
  buildAvailabilityExtensionsWith ORDERED_DAYS w

/-- A flattened entry derived from a well-formed window: a valid start
minute and a duration in `[1, 1440]` minutes. -/
def validEntry (e : WindowEntry) : Prop :=
  validTime e.startTime ∧ 1 ≤ e.durationMin ∧ e.durationMin ≤ 1440

/-! ### The on-wire extension tree and the decoder -/

/-- The `valueTiming.repeat` payload of an `availability` sub-extension as
the decoder reads it: every field may be missing.  Per the embedding
conventions, `duration` holds the denoted duration in minutes (the wire's
`(value, durationUnit)` pair after the decoder's unit normalization). -/
structure AvailRepeat where
  dayOfWeek : Option (List Day)
  timeOfDay : Option (List ℤ)
  duration : Option ℤ
deriving DecidableEq

/-- The repeat payload the encoder emits for one built entry
(`durationUnit: 'h'`, value `duration / 60` hours). -/
def toRepeat (b : BuiltEntry) : AvailRepeat :=
  ⟨some b.dayOfWeek, some b.timeOfDay, some b.duration⟩

/-- One sub-extension of a `SchedulingParameters` extension block, tagged by
its `url`.  `availabilitySub none` is an `availability` entry whose
`valueTiming.repeat` is missing.  Buffer/alignment values are in minutes
(their `(value, unit)` wire pair, normalized), booking-limit numbers are
unitless. -/
inductive SubExt : Type
  | serviceTypeSub (code : String)
  | durationSub (value : ℤ) (unit : String)
  | availabilitySub (rpt : Option AvailRepeat)
  | bufferBeforeSub (value : ℤ)
  | bufferAfterSub (value : ℤ)
  | alignmentIntervalSub (value : ℤ)
  | alignmentOffsetSub (value : ℤ)
  | bookingLimitSub (frequency : ℤ) (period : ℤ) (periodUnit : String)
  | timezoneSub (code : String)
deriving DecidableEq

/-- `ext.extension?.filter((sub) => sub.url === 'availability')`: the
`valueTiming.repeat` payloads (possibly missing) of the `availability`
sub-extensions, in order. -/
def availSubs (ext : List SubExt) : List (Option AvailRepeat) :=
  ext.filterMap (fun s =>
    match s with
    | .availabilitySub rpt => some rpt
    | _ => none)

/-- `parseWeekScheduleFromExtension`: start with every day off; for each
`availability` entry that has a `repeat`, mark its days enabled and append
one window per `timeOfDay` using the entry's duration (defaults: 8 hours =
480 minutes, times `['09:00:00']`); finally give enabled days with no
window the default 09:00–17:00 window. -/
def parseWeekScheduleFromExtension (ext : List SubExt) : WeekSchedule :=
  let week := (availSubs ext).foldl (fun week avail =>
    match avail with
    | none => week
    | some rpt =>
      let days := rpt.dayOfWeek.getD []
      let durMin := rpt.duration.getD 480
      let times := rpt.timeOfDay.getD [540]
      days.foldl (fun week day =>
        week.update day (fun ds =>
          ⟨true, ds.timeWindows ++ times.map (fun t => fhirToTimeWindow t durMin)⟩)) week)
    weekAllOff
  ORDERED_DAYS.foldl (fun week day =>
    week.update day (fun ds =>
      if ds.enabled = true ∧ ds.timeWindows = [] then ⟨ds.enabled, [DEFAULT_WINDOW]⟩ else ds))
    week

/-- Decode of encode: `parseWeekScheduleFromExtension` applied to the
extension list `buildAvailabilityExtensions` produces. -/
def decodeEncode (w : WeekSchedule) : WeekSchedule :=
  parseWeekScheduleFromExtension
    ((buildAvailabilityExtensions w).map (fun b => SubExt.availabilitySub (some (toRepeat b))))

/-! ### Canonical views for the order-independence property -/

/-- An emitted entry up to the order of its `timeOfDay` list (its day list
is already canonically sorted by the encoder). -/
def canonEntry (b : BuiltEntry) : List Day × Finset ℤ × ℤ :=
  (b.dayOfWeek, b.timeOfDay.toFinset, b.duration)

/-- The emitted entries as a set of canonical entries. -/
def canonSet (l : List BuiltEntry) : Finset (List Day × Finset ℤ × ℤ) :=
  (l.map canonEntry).toFinset

/-- The `(day, startTime, durationMin)` content of one flattened entry. -/
def entryTriple (e : WindowEntry) : Day × ℤ × ℤ := (e.day, e.startTime, e.durationMin)

/-- The flattened window content of a week as a set of triples. -/
def tripleFinset (l : List WindowEntry) : Finset (Day × ℤ × ℤ) :=
  (l.map entryTriple).toFinset

/-- The sorted list of days that carry the window `(s, q)` in `S`. -/
def daysOfList (S : Finset (Day × ℤ × ℤ)) (s q : ℤ) : List Day :=
  ALPHA_DAYS.filter (fun d => (d, s, q) ∈ S)

/-- The start times grouped into the entry with day list `D` and duration
`q` by the two compaction passes. -/
def timesOfFinset (S : Finset (Day × ℤ × ℤ)) (D : List Day) (q : ℤ) : Finset ℤ :=
  (S.filter (fun t => t.2.2 = q ∧ daysOfList S t.2.1 q = D)).image (fun t => t.2.1)

/-- The canonical entry set determined by a window-content set alone:
one entry per realized `(day list, duration)` group. -/
def canonSpec (S : Finset (Day × ℤ × ℤ)) : Finset (List Day × Finset ℤ × ℤ) :=
  S.image (fun t =>
    (daysOfList S t.2.1 t.2.2, timesOfFinset S (daysOfList S t.2.1 t.2.2) t.2.2, t.2.2))

/-! ### `buildSchedulingParametersExtensions` -/

/-- `BookingLimit` of SetAvailabilityModal. -/
structure BookingLimit where
  frequency : ℤ
  period : ℤ
  periodUnit : String
deriving DecidableEq

/-- `ServiceTypeOverride` (the service type itself is embedded as an opaque
code; buffer/alignment values in minutes). -/
structure ServiceTypeOverride where
  serviceType : String
  durationValue : ℤ
  durationUnit : String
  weekSchedule : WeekSchedule
  bufferBefore : ℤ
  bufferAfter : ℤ
  alignmentInterval : ℤ
  alignmentOffset : ℤ
  bookingLimits : List BookingLimit
  timezone : Option String
deriving DecidableEq

/-- `AvailabilityFormValues`. -/
structure AvailabilityFormValues where
  durationValue : ℤ
  durationUnit : String
  weekSchedule : WeekSchedule
  bufferBefore : ℤ
  bufferAfter : ℤ
  alignmentInterval : ℤ
  alignmentOffset : ℤ
  bookingLimits : List BookingLimit
  timezone : String
  serviceTypeOverrides : List ServiceTypeOverride
deriving DecidableEq

/-- The default (no service type) extension block's sub-extension list, in
push order. -/
def buildDefaultSubs (v : AvailabilityFormValues) : List SubExt :=
  [SubExt.durationSub v.durationValue v.durationUnit]
  ++ (buildAvailabilityExtensions v.weekSchedule).map
      (fun b => SubExt.availabilitySub (some (toRepeat b)))
  ++ (if v.bufferBefore > 0 then [SubExt.bufferBeforeSub v.bufferBefore] else [])
  ++ (if v.bufferAfter > 0 then [SubExt.bufferAfterSub v.bufferAfter] else [])
  ++ (if v.alignmentInterval > 0 then
        [SubExt.alignmentIntervalSub v.alignmentInterval]
        ++ (if v.alignmentOffset > 0 then [SubExt.alignmentOffsetSub v.alignmentOffset]
            else [])
      else [])
  ++ v.bookingLimits.filterMap (fun limit =>
      if limit.frequency > 0 then
        some (SubExt.bookingLimitSub limit.frequency limit.period limit.periodUnit)
      else none)
  ++ (if v.timezone ≠ "" then [SubExt.timezoneSub v.timezone] else [])

/-- One service override's extension block, in push order. -/
def buildOverrideSubs (o : ServiceTypeOverride) : List SubExt :=
  [SubExt.serviceTypeSub o.serviceType, SubExt.durationSub o.durationValue o.durationUnit]
  ++ (buildAvailabilityExtensions o.weekSchedule).map
      (fun b => SubExt.availabilitySub (some (toRepeat b)))
  ++ (if o.bufferBefore > 0 then [SubExt.bufferBeforeSub o.bufferBefore] else [])
  ++ (if o.bufferAfter > 0 then [SubExt.bufferAfterSub o.bufferAfter] else [])
  ++ (if o.alignmentInterval > 0 then
        [SubExt.alignmentIntervalSub o.alignmentInterval]
        ++ (if o.alignmentOffset > 0 then [SubExt.alignmentOffsetSub o.alignmentOffset]
            else [])
      else [])
  ++ o.bookingLimits.filterMap (fun limit =>
      if limit.frequency > 0 then
        some (SubExt.bookingLimitSub limit.frequency limit.period limit.periodUnit)
      else none)
  ++ (match o.timezone with
      | some tz => if tz ≠ "" then [SubExt.timezoneSub tz] else []
      | none => [])

/-- `buildSchedulingParametersExtensions`: the default block followed by one
block per service override. -/
def buildSchedulingParametersExtensions (v : AvailabilityFormValues) : List (List SubExt) :=
  buildDefaultSubs v :: v.serviceTypeOverrides.map buildOverrideSubs

/-- Whether a block contains an `alignmentOffset` sub-extension. -/
def hasOffsetSub (ext : List SubExt) : Bool :=
  ext.any (fun s => match s with | .alignmentOffsetSub _ => true | _ => false)

/-- Whether a block contains an `alignmentInterval` sub-extension. -/
def hasIntervalSub (ext : List SubExt) : Bool :=
  ext.any (fun s => match s with | .alignmentIntervalSub _ => true | _ => false)

/-- Whether a block contains a `serviceType` sub-extension
(`getExtensionValue(ext, 'serviceType')` is truthy). -/
def hasServiceTypeSub (ext : List SubExt) : Bool :=
  ext.any (fun s => match s with | .serviceTypeSub _ => true | _ => false)

/-! ### The visual slot generator `generateAvailabilitySlots` -/

/-- One local calendar day in milliseconds (DST not modelled). -/
def dayMs : ℤ := 86400000

/-- The visible calendar range handed to the generator (`Range`), in ms. -/
structure ParamsRange where
  start : ℤ
  endTime : ℤ
deriving DecidableEq

/-- A FHIR `Slot` as this engine reads and writes it.  `id = none` is a
virtual (display-only) slot; instants in ms. -/
structure Slot where
  scheduleRef : String
  status : String
  start : ℤ
  endTime : ℤ
  id : Option String
  comment : Option String
deriving DecidableEq

/-- `setHours(0, 0, 0, 0)`: floor to local midnight. -/
def midnightOf (t : ℤ) : ℤ := dayMs * (t.fdiv dayMs)

/-- `setHours(23, 59, 59, 999)`: the last millisecond of the local day. -/
def endOfDayOf (t : ℤ) : ℤ := midnightOf t + (dayMs - 1)

/-- `getDay()`: weekday number, 0 = Sunday (the epoch is a Sunday
midnight). -/
def dowOf (t : ℤ) : ℕ := ((t.fdiv dayMs) % 7).toNat

/-- The generator's day loop: `while (current <= end)`, stepping
`current.setDate(current.getDate() + 1)`. -/
def dayLoop (endT : ℤ) (current : ℤ) : List ℤ :=
  if current ≤ endT then current :: dayLoop endT (current + dayMs) else []
termination_by (endT + dayMs - current).toNat
decreasing_by simp [dayMs] at *; omega

/-- One parsed `AvailEntry` of the generator: weekday numbers and
`(startMinutes, durationMin)` windows.  The source keeps `startHour` and
`startMin` separately and later calls `setHours(startHour, startMin, 0, 0)`,
which equals adding `startMinutes` minutes to the day's midnight; it also
puts the days in a `Set`, embedded as the list with `∈` membership. -/
structure GenEntry where
  days : List ℕ
  windows : List (ℤ × ℤ)
deriving DecidableEq

/-- Parse one `availability` sub-extension into a `GenEntry` (defaults:
no days, duration 8 hours = 480 minutes, times `['09:00:00']`). -/
def toGenEntry (rpt : Option AvailRepeat) : GenEntry :=
  let days := ((rpt.bind AvailRepeat.dayOfWeek).getD []).map dayNumber
  let durMin := (rpt.bind AvailRepeat.duration).getD 480
  let windows := ((rpt.bind AvailRepeat.timeOfDay).getD [540]).map (fun t => (t, durMin))
  ⟨days, windows⟩

/-- Build one virtual slot: `status: 'free'`, no `id`, anchored at the day's
midnight plus the window's start minutes, lasting the window's duration
(`durationHours * 60 * 60 * 1000` ms is `durMin * 60000` ms). -/
def mkSlot (scheduleRef : String) (cur : ℤ) (w : ℤ × ℤ) : Slot :=
  { scheduleRef := scheduleRef
    status := "free"
    start := cur + w.1 * 60000
    endTime := cur + w.1 * 60000 + w.2 * 60000
    id := none
    comment := none }

/-- The first extension block with no `serviceType` (the default
configuration scope). -/
def defaultBlock (blocks : List (List SubExt)) : Option (List SubExt) :=
  blocks.find? (fun b => !hasServiceTypeSub b)

/-- `generateAvailabilitySlots` of SchedulePage: read the default
`SchedulingParameters` block (none ⇒ no slots), parse its `availability`
entries, and for every day of the range (midnight of the range start
through 23:59:59.999 of the range end) emit one free virtual slot per
window of every entry containing that day's weekday.  The `scheduleRef`
argument stands for `createReference(schedule)`. -/
def generateAvailabilitySlots (scheduleRef : String) (blocks : List (List SubExt))
    (range : ParamsRange) : List Slot :=
  match defaultBlock blocks with
  | none => []
  | some defaultExt =>
    let availabilities := availSubs defaultExt
    if availabilities.length = 0 then []
    else
      let entries := availabilities.map toGenEntry
      (dayLoop (endOfDayOf range.endTime) (midnightOf range.start)).flatMap (fun cur =>
        entries.flatMap (fun entry =>
          if dowOf cur ∈ entry.days then entry.windows.map (fun w => mkSlot scheduleRef cur w)
          else []))

/-- Modelled from the spec (§4.2): the calendar days "fully or partially
inside `dateRange` (day boundaries taken at local midnight)", enumerated
directly as the arithmetic progression of day starts from the range start's
midnight to the range end's day. -/
def specDayStarts (range : ParamsRange) : List ℤ :=
  if midnightOf range.start ≤ endOfDayOf range.endTime then
    (List.range ((endOfDayOf range.endTime - midnightOf range.start).toNat / 86400000 + 1)).map
      (fun k : ℕ => midnightOf range.start + (k : ℤ) * dayMs)
  else []

/-- Modelled from the spec (§4.2): same per-day slot emission as the
generator, but over the spec's day enumeration instead of the source's
`while` loop. -/
def generateAvailabilitySlotsSpec (scheduleRef : String) (blocks : List (List SubExt))
    (range : ParamsRange) : List Slot :=
  match defaultBlock blocks with
  | none => []
  | some defaultExt =>
    let availabilities := availSubs defaultExt
    if availabilities.length = 0 then []
    else
      let entries := availabilities.map toGenEntry
      (specDayStarts range).flatMap (fun cur =>
        entries.flatMap (fun entry =>
          if dowOf cur ∈ entry.days then entry.windows.map (fun w => mkSlot scheduleRef cur w)
          else []))

/-! ### The recurring series generator (CreateVisit) -/

/-- `getRecurringSlots`: `occurrences` pairs, the i-th shifted by
`i * intervalWeeks * 7` calendar days from the first, each with the first
occurrence's exact duration. -/
def getRecurringSlots (firstStart firstEnd : ℤ) (occurrences intervalWeeks : ℕ) :
    List (ℤ × ℤ) :=
  let durationMs := firstEnd - firstStart
  (List.range occurrences).map (fun i =>
    let start := firstStart + ((i * intervalWeeks * 7 : ℕ) : ℤ) * dayMs
    (start, start + durationMs))

/-- Modelled from the spec: `createEncounter` (utils/encounter.ts, not under
src/) tags the created appointment with the recurrence series identifier
exactly when one is passed in its options (§4.5's series tagging). -/
def createEncounterSeriesTag (opt : Option String) : Option String := opt

/-- The series of encounters `CreateVisit.handleSubmit` creates: the slot
list (recurring ⇒ `getRecurringSlots`, else the single slot), and the
series-identifier option passed to `createEncounter` for each one
(`isRecurring && slots.length > 1 ? uuidv4() : undefined`, with the fresh
uuid as a parameter). -/
def plannedEncounters (isRecurring : Bool) (start endT : ℤ)
    (occurrences intervalWeeks : ℕ) (freshId : String) :
    List ((ℤ × ℤ) × Option String) :=
  let slots := if isRecurring then getRecurringSlots start endT occurrences intervalWeeks
               else [(start, endT)]
  let recurrenceSeriesId := if isRecurring = true ∧ 1 < slots.length then some freshId else none
  slots.map (fun s => (s, createEncounterSeriesTag recurrenceSeriesId))

/-! ### Conflict checks and block creation -/

/-- An `Appointment` as the conflict checks read it: `start`/`end` may be
missing, `status` is the FHIR status code. -/
structure Appointment where
  start : Option ℤ
  endTime : Option ℤ
  status : String
deriving DecidableEq

/-- Modelled from the spec: `rangesOverlap` (utils/slots.ts, not under
src/), §4.4: the half-open intervals intersect,
`aStart < bEnd && bStart < aEnd`. -/
def rangesOverlap (aStart aEnd bStart bEnd : ℤ) : Bool :=
  decide (aStart < bEnd) && decide (bStart < aEnd)

/-- `handleBlockFromCalendar` of SchedulePage: refuse to create the
busy-unavailable slot (returning `none`) when the pending interval overlaps
an appointment with both endpoints set whose status is not 'cancelled';
otherwise create it (`comment` is the trimmed reason, or absent). -/
def handleBlockFromCalendar (appointments : List Appointment)
    (blockStart blockEnd : ℤ) (blockReason : String) : Option Slot :=
  let overlappingAppointment := appointments.find? (fun apt =>
    apt.start.isSome && apt.endTime.isSome && decide (apt.status ≠ "cancelled") &&
    rangesOverlap blockStart blockEnd (apt.start.getD 0) (apt.endTime.getD 0))
  match overlappingAppointment with
  | some _ => none
  | none =>
    some { scheduleRef := "schedule"
           status := "busy-unavailable"
           start := blockStart
           endTime := blockEnd
           id := none
           comment := if blockReason.trim = "" then none else some blockReason.trim }

/-- `BlockedTime` of SetAvailabilityModal.  Dates are day indices, times
minute-of-day values; `none` embeds the empty (falsy) form field. -/
structure BlockedTime where
  allDay : Bool
  startDate : Option ℕ
  endDate : Option ℕ
  startTime : Option ℕ
  endTime : Option ℕ
  comment : String
deriving DecidableEq

/-- `hasDates = !!block.startDate && !!block.endDate`. -/
def hasDates (b : BlockedTime) : Bool := b.startDate.isSome && b.endDate.isSome

/-- `dateOrderOk = hasDates && block.endDate >= block.startDate`
(lexicographic on "YYYY-MM-DD" = numeric on day indices). -/
def dateOrderOk (b : BlockedTime) : Bool :=
  hasDates b && decide (b.startDate.getD 0 ≤ b.endDate.getD 0)

/-- `sameDay = block.startDate === block.endDate`. -/
def sameDayBlock (b : BlockedTime) : Bool := decide (b.startDate = b.endDate)

/-- `timeOrderOk`: all-day, a missing time, or a multi-day block passes;
a same-day block needs `endTime > startTime` (lexicographic on "HH:MM" =
numeric on minutes). -/
def timeOrderOk (b : BlockedTime) : Bool :=
  b.allDay || !b.startTime.isSome || !b.endTime.isSome || !sameDayBlock b ||
    decide (b.startTime.getD 0 < b.endTime.getD 0)

/-- `isValid`: an all-day block needs the date order; a timed block also
needs both times present and the time order. -/
def isValidBlock (b : BlockedTime) : Bool :=
  if b.allDay then dateOrderOk b
  else dateOrderOk b && b.startTime.isSome && b.endTime.isSome && timeOrderOk b

/-- `validationHint`: the human-readable reason when invalid ('' when the
two rules do not fire). -/
def validationHint (b : BlockedTime) : String :=
  if hasDates b = true ∧ dateOrderOk b = false then "End date must be on or after start date"
  else if b.allDay = false ∧ sameDayBlock b = true ∧ b.startTime.isSome = true ∧
      b.endTime.isSome = true ∧ timeOrderOk b = false then
    "End time must be after start time"
  else ""

/-- `createBlockSlots` of SetAvailabilityModal: build the single
busy-unavailable slot for a block.  All-day blocks run from the start
date's midnight to 23:59:59 of the end date; timed blocks from start
date+time to end date+time.  The function performs no conflict check. -/
def createBlockSlots (b : BlockedTime) : Slot :=
  let comment := if b.comment = "" then none else some b.comment
  if b.allDay then
    { scheduleRef := "schedule"
      status := "busy-unavailable"
      start := ((b.startDate.getD 0 : ℕ) : ℤ) * 86400000
      endTime := ((b.endDate.getD 0 : ℕ) : ℤ) * 86400000 + 86399000
      id := none
      comment := comment }
  else
    { scheduleRef := "schedule"
      status := "busy-unavailable"
      start := ((b.startDate.getD 0 : ℕ) : ℤ) * 86400000 + ((b.startTime.getD 0 : ℕ) : ℤ) * 60000
      endTime := ((b.endDate.getD 0 : ℕ) : ℤ) * 86400000 + ((b.endTime.getD 0 : ℕ) : ℤ) * 60000
      id := none
      comment := comment }

/-- The modal's Block button: disabled unless `isValid`, otherwise it calls
`handleBlockTime`, which invokes `createBlockSlots` unconditionally. -/
def attemptBlockTime (b : BlockedTime) : Option Slot :=
  if isValidBlock b = true then some (createBlockSlots b) else none

/-! ### Concrete inputs used by counterexamples and witnesses -/

/-- A week whose Monday carries the same 09:00–10:00 window twice, all
other days disabled. -/
def weekDupWindows : WeekSchedule :=
  { mon := ⟨true, [⟨540, 600⟩, ⟨540, 600⟩]⟩
    tue := ⟨false, []⟩, wed := ⟨false, []⟩, thu := ⟨false, []⟩
    fri := ⟨false, []⟩, sat := ⟨false, []⟩, sun := ⟨false, []⟩ }

/-- Mon–Fri all enabled with the single 09:00–17:00 window. -/
def weekFiveNine : WeekSchedule :=
  { mon := ⟨true, [⟨540, 1020⟩]⟩
    tue := ⟨true, [⟨540, 1020⟩]⟩
    wed := ⟨true, [⟨540, 1020⟩]⟩
    thu := ⟨true, [⟨540, 1020⟩]⟩
    fri := ⟨true, [⟨540, 1020⟩]⟩
    sat := ⟨false, []⟩, sun := ⟨false, []⟩ }

/-- Monday with two windows 09:00–10:00 and 13:00–14:00 (listed in that
order), Tuesday with the 09:00–10:00 window. -/
def weekPermA : WeekSchedule :=
  { mon := ⟨true, [⟨540, 600⟩, ⟨780, 840⟩]⟩
    tue := ⟨true, [⟨540, 600⟩]⟩
    wed := ⟨false, []⟩, thu := ⟨false, []⟩
    fri := ⟨false, []⟩, sat := ⟨false, []⟩, sun := ⟨false, []⟩ }

/-- The same week as `weekPermA` with Monday's window list permuted. -/
def weekPermB : WeekSchedule :=
  { mon := ⟨true, [⟨780, 840⟩, ⟨540, 600⟩]⟩
    tue := ⟨true, [⟨540, 600⟩]⟩
    wed := ⟨false, []⟩, thu := ⟨false, []⟩
    fri := ⟨false, []⟩, sat := ⟨false, []⟩, sun := ⟨false, []⟩ }

/-- A non-cancelled 14:00–15:00 appointment on day 20522 (2026-03-10). -/
def aptMarch10 : Appointment :=
  ⟨some (20522 * 86400000 + 840 * 60000), some (20522 * 86400000 + 900 * 60000), "booked"⟩

/-- A valid same-day timed block 14:30–15:30 on day 20522 (2026-03-10),
overlapping `aptMarch10`. -/
def blockMarch10 : BlockedTime :=
  ⟨false, some 20522, some 20522, some 870, some 930, "errand"⟩

/-- A same-day timed block whose end time (09:00) is not after its start
time (10:00). -/
def blockBadTimes : BlockedTime := ⟨false, some 100, some 100, some 600, some 540, ""⟩

/-- A two-day timed block with an overnight time range (20:00 → 05:00). -/
def blockOvernight : BlockedTime := ⟨false, some 100, some 101, some 1200, some 300, ""⟩

/-! ## Theorems -/

/-! ### Helper lemmas -/

theorem map_snd_map_pair {A B : Type} (l : List A) (c : B) :
    List.map (Prod.snd ∘ fun a => (a, c)) l = List.replicate l.length c := by
  induction l with
  | nil => rfl
  | cons a as ih => simp only [List.map_cons, List.length_cons, List.replicate_succ] at ih ⊢; simp [ih]

theorem hasOffsetSub_append (xs ys : List SubExt) :
    hasOffsetSub (xs ++ ys) = (hasOffsetSub xs || hasOffsetSub ys) := by
  simp [hasOffsetSub]

theorem hasIntervalSub_append (xs ys : List SubExt) :
    hasIntervalSub (xs ++ ys) = (hasIntervalSub xs || hasIntervalSub ys) := by
  simp [hasIntervalSub]

theorem hasOffsetSub_avail_map (l : List BuiltEntry) :
    hasOffsetSub (l.map (fun b => SubExt.availabilitySub (some (toRepeat b)))) = false := by
  induction l with
  | nil => rfl
  | cons b bs ih => simpa [hasOffsetSub] using ih

theorem hasIntervalSub_avail_map (l : List BuiltEntry) :
    hasIntervalSub (l.map (fun b => SubExt.availabilitySub (some (toRepeat b)))) = false := by
  induction l with
  | nil => rfl
  | cons b bs ih => simpa [hasIntervalSub] using ih

theorem hasOffsetSub_bookingLimits (l : List BookingLimit) :
    hasOffsetSub (l.filterMap (fun limit =>
      if limit.frequency > 0 then
        some (SubExt.bookingLimitSub limit.frequency limit.period limit.periodUnit)
      else none)) = false := by
  induction l with
  | nil => rfl
  | cons b bs ih =>
    by_cases h : b.frequency > 0 <;> simp [h, hasOffsetSub] at ih ⊢ <;>
      simpa [hasOffsetSub] using ih

theorem hasIntervalSub_bookingLimits (l : List BookingLimit) :
    hasIntervalSub (l.filterMap (fun limit =>
      if limit.frequency > 0 then
        some (SubExt.bookingLimitSub limit.frequency limit.period limit.periodUnit)
      else none)) = false := by
  induction l with
  | nil => rfl
  | cons b bs ih =>
    by_cases h : b.frequency > 0 <;> simp [h, hasIntervalSub] at ih ⊢ <;>
      simpa [hasIntervalSub] using ih

theorem hasOffsetSub_default (v : AvailabilityFormValues) :
    hasOffsetSub (buildDefaultSubs v) =
      (decide (v.alignmentInterval > 0) && decide (v.alignmentOffset > 0)) := by
  unfold buildDefaultSubs
  rw [hasOffsetSub_append, hasOffsetSub_append, hasOffsetSub_append, hasOffsetSub_append,
    hasOffsetSub_append, hasOffsetSub_append]
  rw [hasOffsetSub_avail_map, hasOffsetSub_bookingLimits]
  by_cases hI : v.alignmentInterval > 0 <;> by_cases hO : v.alignmentOffset > 0 <;>
    by_cases hBB : v.bufferBefore > 0 <;> by_cases hBA : v.bufferAfter > 0 <;>
    by_cases hTz : v.timezone ≠ "" <;>
    simp [hI, hO, hBB, hBA, hTz, hasOffsetSub]

theorem hasIntervalSub_default (v : AvailabilityFormValues) :
    hasIntervalSub (buildDefaultSubs v) = decide (v.alignmentInterval > 0) := by
  unfold buildDefaultSubs
  rw [hasIntervalSub_append, hasIntervalSub_append, hasIntervalSub_append,
    hasIntervalSub_append, hasIntervalSub_append, hasIntervalSub_append]
  rw [hasIntervalSub_avail_map, hasIntervalSub_bookingLimits]
  by_cases hI : v.alignmentInterval > 0 <;> by_cases hO : v.alignmentOffset > 0 <;>
    by_cases hBB : v.bufferBefore > 0 <;> by_cases hBA : v.bufferAfter > 0 <;>
    by_cases hTz : v.timezone ≠ "" <;>
    simp [hI, hO, hBB, hBA, hTz, hasIntervalSub]

theorem hasOffsetSub_override (o : ServiceTypeOverride) :
    hasOffsetSub (buildOverrideSubs o) =
      (decide (o.alignmentInterval > 0) && decide (o.alignmentOffset > 0)) := by
  unfold buildOverrideSubs
  rw [hasOffsetSub_append, hasOffsetSub_append, hasOffsetSub_append, hasOffsetSub_append,
    hasOffsetSub_append, hasOffsetSub_append]
  rw [hasOffsetSub_avail_map, hasOffsetSub_bookingLimits]
  by_cases hI : o.alignmentInterval > 0 <;> by_cases hO : o.alignmentOffset > 0 <;>
    by_cases hBB : o.bufferBefore > 0 <;> by_cases hBA : o.bufferAfter > 0 <;>
    cases hTz : o.timezone <;>
    simp [hI, hO, hBB, hBA, hasOffsetSub] <;>
    split <;> simp [hasOffsetSub]

theorem hasIntervalSub_override (o : ServiceTypeOverride) :
    hasIntervalSub (buildOverrideSubs o) = decide (o.alignmentInterval > 0) := by
  unfold buildOverrideSubs
  rw [hasIntervalSub_append, hasIntervalSub_append, hasIntervalSub_append,
    hasIntervalSub_append, hasIntervalSub_append, hasIntervalSub_append]
  rw [hasIntervalSub_avail_map, hasIntervalSub_bookingLimits]
  by_cases hI : o.alignmentInterval > 0 <;> by_cases hO : o.alignmentOffset > 0 <;>
    by_cases hBB : o.bufferBefore > 0 <;> by_cases hBA : o.bufferAfter > 0 <;>
    cases hTz : o.timezone <;>
    simp [hI, hO, hBB, hBA, hasIntervalSub] <;>
    split <;> simp [hasIntervalSub]

/-! ### C4 -/

/-- C4: for Mon–Fri all enabled with the single 09:00–17:00 window, the
encoder emits exactly one recurring-rule entry, whose day set is all five
weekdays, with the single start time 09:00 and an 8-hour duration (480
minutes, the wire value 8 with unit 'h') — not five separate entries. -/
theorem encode_merges_five_weekdays :
    buildAvailabilityExtensions weekFiveNine =
      [⟨[Day.fri, Day.mon, Day.thu, Day.tue, Day.wed], [540], 480⟩] ∧
    (buildAvailabilityExtensions weekFiveNine).length = 1 ∧
    ∀ b ∈ buildAvailabilityExtensions weekFiveNine,
      b.dayOfWeek.toFinset = {Day.mon, Day.tue, Day.wed, Day.thu, Day.fri} ∧
      b.timeOfDay = [540] ∧ b.duration = 480 := by
  refine ⟨by decide, by decide, by decide⟩

/-! ### C6 -/

/-- C6: for any first occurrence `(s, e)`, count `n ≥ 2` and interval
`w ≥ 1` weeks, the series generator returns exactly the `n` pairs
`(s + i·w·7 days, e + i·w·7 days)` for `i = 0..n-1`, preserving the
original duration; the witness instantiates the 2026-01-05 09:00–10:00,
`n = 4`, `w = 2` example (day indices 20458, 20472, 20486, 20500 are
2026-01-05, 2026-01-19, 2026-02-02 and 2026-02-16). -/
theorem getRecurringSlots_formula (s e : ℤ) (n w : ℕ) (hn : 2 ≤ n) (hw : 1 ≤ w) :
    getRecurringSlots s e n w =
      (List.range n).map (fun i =>
        (s + ((i * w * 7 : ℕ) : ℤ) * dayMs, e + ((i * w * 7 : ℕ) : ℤ) * dayMs)) ∧
    (getRecurringSlots s e n w).length = n := by
  constructor
  · unfold getRecurringSlots
    refine List.map_congr_left fun i _ => ?_
    simp only
    congr 1
    ring
  · simp [getRecurringSlots]

theorem getRecurringSlots_formula_witness :
    (2 ≤ 4 ∧ 1 ≤ 2) ∧
    getRecurringSlots (20458 * 86400000 + 540 * 60000) (20458 * 86400000 + 600 * 60000) 4 2 =
      [(20458 * 86400000 + 540 * 60000, 20458 * 86400000 + 600 * 60000),
       (20472 * 86400000 + 540 * 60000, 20472 * 86400000 + 600 * 60000),
       (20486 * 86400000 + 540 * 60000, 20486 * 86400000 + 600 * 60000),
       (20500 * 86400000 + 540 * 60000, 20500 * 86400000 + 600 * 60000)] := by
  refine ⟨⟨by decide, by decide⟩, ?_⟩
  rw [(getRecurringSlots_formula (20458 * 86400000 + 540 * 60000)
    (20458 * 86400000 + 600 * 60000) 4 2 (by decide) (by decide)).1]
  decide

/-! ### C2 -/

/-- C2 counterexample: creating a recurring series of 2 passes the freshly
generated series identifier to `createEncounter` for the first occurrence
as well — the first occurrence is tagged, contrary to the claim. -/
theorem series_first_occurrence_tagged :
    (plannedEncounters true 0 3600000 2 1 "series-1").map Prod.snd =
      [some "series-1", some "series-1"] := by decide

/-- C2 as amended: when a recurring series of `n ≥ 2` occurrences is
created, every occurrence including the first is tagged with the one
freshly generated series identifier; a single occurrence (`n = 1` or
recurrence disabled) carries no series identifier. -/
theorem series_tagging (s e : ℤ) (n w : ℕ) (sid : String) (hn : 2 ≤ n) :
    (plannedEncounters true s e n w sid).map Prod.snd = List.replicate n (some sid) ∧
    (plannedEncounters false s e n w sid).map Prod.snd = [none] ∧
    (plannedEncounters true s e 1 w sid).map Prod.snd = [none] := by
  refine ⟨?_, by simp [plannedEncounters, createEncounterSeriesTag], ?_⟩
  · have hlen : (getRecurringSlots s e n w).length = n := by simp [getRecurringSlots]
    have h1 : 1 < (getRecurringSlots s e n w).length := by omega
    have h2 : 1 < n := by omega
    simp [plannedEncounters, createEncounterSeriesTag, h1, h2]
    rw [map_snd_map_pair, hlen]
  · have hlen : (getRecurringSlots s e 1 w).length = 1 := by simp [getRecurringSlots]
    simp [plannedEncounters, createEncounterSeriesTag, hlen]
    rw [map_snd_map_pair, hlen]
    rfl

theorem series_tagging_witness :
    2 ≤ 2 ∧
    (plannedEncounters true 10 20 2 1 "sid").map Prod.snd =
      List.replicate 2 (some "sid") :=
  ⟨by decide, (series_tagging 10 20 2 1 "sid" (by decide)).1⟩

/-! ### C3 -/

/-- C3 counterexample: the Block Time tab of the availability modal is a
block-creation path that issues the busy-unavailable Slot create even when
the requested interval overlaps a non-cancelled appointment — the request
is validated only for date/time well-formedness, never against
appointments. -/
theorem modal_block_ignores_appointments :
    isValidBlock blockMarch10 = true ∧
    attemptBlockTime blockMarch10 = some (createBlockSlots blockMarch10) ∧
    (createBlockSlots blockMarch10).status = "busy-unavailable" ∧
    aptMarch10.status ≠ "cancelled" ∧
    rangesOverlap (createBlockSlots blockMarch10).start (createBlockSlots blockMarch10).endTime
      (aptMarch10.start.getD 0) (aptMarch10.endTime.getD 0) = true := by
  refine ⟨by decide, by decide, by decide, by decide, by decide⟩

/-- C3 as amended: only the calendar block path rejects on overlap: a
calendar block is refused (no Slot create issued) exactly when the interval
overlaps an appointment with both endpoints present whose status is not
'cancelled'; the availability-modal block path issues the create for every
valid request regardless of appointments. -/
theorem calendar_block_overlap_guard (appointments : List Appointment) (bs be : ℤ)
    (r : String) :
    (handleBlockFromCalendar appointments bs be r = none ↔
      ∃ apt ∈ appointments, apt.start.isSome = true ∧ apt.endTime.isSome = true ∧
        apt.status ≠ "cancelled" ∧
        rangesOverlap bs be (apt.start.getD 0) (apt.endTime.getD 0) = true) ∧
    ∀ b : BlockedTime, isValidBlock b = true → attemptBlockTime b = some (createBlockSlots b) := by
  constructor
  · unfold handleBlockFromCalendar
    cases hfind : appointments.find? (fun apt =>
        apt.start.isSome && apt.endTime.isSome && decide (apt.status ≠ "cancelled") &&
        rangesOverlap bs be (apt.start.getD 0) (apt.endTime.getD 0)) with
    | none =>
      simp only [Option.some_ne_none, false_iff]
      rintro ⟨apt, hmem, h1, h2, h3, h4⟩
      have := List.find?_eq_none.1 hfind apt hmem
      simp [h1, h2, h3, h4] at this
    | some apt =>
      simp only [true_iff]
      have hmem := List.mem_of_find?_eq_some hfind
      have hpred := List.find?_some hfind
      simp only [Bool.and_eq_true, decide_eq_true_eq] at hpred
      exact ⟨apt, hmem, hpred.1.1.1, hpred.1.1.2, hpred.1.2, hpred.2⟩
  · intro b hb
    simp [attemptBlockTime, hb]

theorem calendar_block_overlap_guard_witness :
    isValidBlock blockMarch10 = true ∧
    attemptBlockTime blockMarch10 = some (createBlockSlots blockMarch10) :=
  ⟨by decide, (calendar_block_overlap_guard [] 0 0 "").2 blockMarch10 (by decide)⟩

/-! ### C8 -/

/-- C8: a same-day non-all-day block whose end time is not strictly after
its start time fails validation with the reason "End time must be after
start time" and the Slot create is never attempted; a multi-day block with
an overnight time range is not rejected by this rule. -/
theorem block_time_validation (b : BlockedTime) :
    (b.allDay = false → b.startDate.isSome = true → b.startDate = b.endDate →
      b.startTime.isSome = true → b.endTime.isSome = true →
      ¬(b.startTime.getD 0 < b.endTime.getD 0) →
      isValidBlock b = false ∧ validationHint b = "End time must be after start time" ∧
        attemptBlockTime b = none) ∧
    (b.allDay = false → b.startDate ≠ b.endDate → timeOrderOk b = true) := by
  constructor
  · intro hAll hSd hEq hSt hEt hLt
    have hsame : sameDayBlock b = true := by simp [sameDayBlock, hEq]
    have hdates : hasDates b = true := by simp [hasDates, hSd, ← hEq]
    have hdateOk : dateOrderOk b = true := by simp [dateOrderOk, hdates, ← hEq]
    have htime : timeOrderOk b = false := by
      simp [timeOrderOk, hAll, hSt, hEt, hsame, hLt]
    have hvalid : isValidBlock b = false := by
      simp [isValidBlock, hAll, htime]
    refine ⟨hvalid, ?_, by simp [attemptBlockTime, hvalid]⟩
    simp [validationHint, hdates, hdateOk, hAll, hsame, hSt, hEt, htime]
  · intro hAll hNe
    have hsame : sameDayBlock b = false := by simp [sameDayBlock, hNe]
    simp [timeOrderOk, hsame]

theorem block_time_validation_witness :
    (isValidBlock blockBadTimes = false ∧
      validationHint blockBadTimes = "End time must be after start time" ∧
      attemptBlockTime blockBadTimes = none) ∧
    timeOrderOk blockOvernight = true :=
  ⟨(block_time_validation blockBadTimes).1 rfl rfl rfl rfl rfl (by decide),
   (block_time_validation blockOvernight).2 rfl (by decide)⟩

/-! ### C10 -/

/-- C10: in every extension block the configuration encoder emits (the
default block and every service override), an `alignmentOffset`
sub-extension appears only when an `alignmentInterval` sub-extension does;
when a scope's alignment interval is zero its offset is omitted even if
positive. -/
theorem alignment_offset_requires_interval (v : AvailabilityFormValues) :
    (∀ blk ∈ buildSchedulingParametersExtensions v,
      hasOffsetSub blk = true → hasIntervalSub blk = true) ∧
    (v.alignmentInterval = 0 → hasOffsetSub (buildDefaultSubs v) = false) ∧
    (∀ o ∈ v.serviceTypeOverrides, o.alignmentInterval = 0 →
      hasOffsetSub (buildOverrideSubs o) = false) := by
  refine ⟨?_, ?_, ?_⟩
  · intro blk hblk hOff
    simp only [buildSchedulingParametersExtensions, List.mem_cons, List.mem_map] at hblk
    rcases hblk with h | ⟨o, _, rfl⟩
    · subst h
      rw [hasOffsetSub_default] at hOff
      rw [hasIntervalSub_default]
      simp only [Bool.and_eq_true] at hOff
      exact hOff.1
    · rw [hasOffsetSub_override] at hOff
      rw [hasIntervalSub_override]
      simp only [Bool.and_eq_true] at hOff
      exact hOff.1
  · intro h0
    rw [hasOffsetSub_default]
    simp [h0]
  · intro o _ h0
    rw [hasOffsetSub_override]
    simp [h0]

theorem alignment_offset_requires_interval_witness :
    hasOffsetSub (buildDefaultSubs
      ⟨30, "min", weekFiveNine, 0, 0, 0, 15, [], "", []⟩) = false :=
  (alignment_offset_requires_interval
    ⟨30, "min", weekFiveNine, 0, 0, 0, 15, [], "", []⟩).2.1 rfl

/-! ### Generic grouping lemmas -/

theorem buildWith_eq_builtOf (order : List Day) (w : WeekSchedule) :
    buildAvailabilityExtensionsWith order w = builtOfEntries (windowEntries order w) := rfl

section GroupingLemmas

variable {A K V : Type} [DecidableEq K]

theorem alook_updateOrAppend (k k' : K) (f : V → V) (v₀ : V) (m : List (K × V)) :
    alook k' (updateOrAppend k f v₀ m) =
      if k' = k then
        (match alook k m with
         | some v => some (f v)
         | none => some v₀)
      else alook k' m := by
  induction m with
  | nil =>
    by_cases h : k' = k
    · subst h
      simp [updateOrAppend, alook]
    · have h2 : ¬ k = k' := fun e => h e.symm
      simp [updateOrAppend, alook, h, h2]
  | cons p rest ih =>
    by_cases hpk : p.1 = k
    · by_cases hk' : k' = k
      · have hp : p.1 = k' := by rw [hpk, hk']
        simp [updateOrAppend, alook, hpk, hk', hp]
      · have hp : ¬ p.1 = k' := by
          intro h
          exact hk' (h ▸ hpk)
        have hk2 : ¬ k = k' := fun e => hk' e.symm
        simp [updateOrAppend, alook, hpk, hk', hp, hk2]
    · by_cases hp : p.1 = k'
      · have hk' : ¬ k' = k := by
          intro h
          exact hpk (by rw [hp, h])
        simp [updateOrAppend, alook, hpk, hk', hp]
      · simp [updateOrAppend, alook, hpk, hp, ih]

theorem keys_updateOrAppend (k : K) (f : V → V) (v₀ : V) (m : List (K × V)) :
    (updateOrAppend k f v₀ m).map Prod.fst =
      if k ∈ m.map Prod.fst then m.map Prod.fst else m.map Prod.fst ++ [k] := by
  induction m with
  | nil => simp [updateOrAppend]
  | cons p rest ih =>
    by_cases hpk : p.1 = k
    · simp [updateOrAppend, hpk]
    · simp only [updateOrAppend, if_neg hpk, List.map_cons, ih]
      have : ¬ k = p.1 := fun h => hpk h.symm
      by_cases hk : k ∈ rest.map Prod.fst <;> simp [this, hk]

theorem nodup_keys_updateOrAppend (k : K) (f : V → V) (v₀ : V) (m : List (K × V))
    (h : (m.map Prod.fst).Nodup) : ((updateOrAppend k f v₀ m).map Prod.fst).Nodup := by
  rw [keys_updateOrAppend]
  by_cases hk : k ∈ m.map Prod.fst
  · simpa [hk] using h
  · rw [if_neg hk, List.nodup_append]
    refine ⟨h, by simp, ?_⟩
    intro a ha hb
    simp only [List.mem_singleton] at hb
    subst hb
    exact hk ha

theorem alook_mem {k : K} {v : V} {m : List (K × V)} (h : alook k m = some v) : (k, v) ∈ m := by
  induction m with
  | nil => simp [alook] at h
  | cons p rest ih =>
    obtain ⟨a, b⟩ := p
    by_cases hp : a = k
    · subst hp
      simp only [alook, if_pos rfl] at h
      cases h
      exact List.mem_cons_self _ _
    · have hp2 : ((a, b) : K × V).1 ≠ k := hp
      simp only [alook, if_neg hp2] at h
      exact List.mem_cons_of_mem _ (ih h)

theorem mem_alook {k : K} {v : V} {m : List (K × V)} (hmem : (k, v) ∈ m)
    (hnd : (m.map Prod.fst).Nodup) : alook k m = some v := by
  induction m with
  | nil => simp at hmem
  | cons p rest ih =>
    simp only [List.map_cons, List.nodup_cons] at hnd
    rcases List.mem_cons.1 hmem with h | h
    · subst h
      simp [alook]
    · have hne : p.1 ≠ k := by
        intro he
        exact hnd.1 (he ▸ List.mem_map_of_mem Prod.fst h)
      simp only [alook, if_neg hne]
      exact ih h hnd.2

variable (key : A → K) (upd : A → V → V) (init : A → V)

theorem foldl_step_alook (l : List A) (acc : List (K × V)) (k : K) :
    alook k (l.foldl (fun acc a => updateOrAppend (key a) (upd a) (init a) acc) acc) =
      match alook k acc with
      | some v => some ((l.filter (fun a => key a = k)).foldl (fun v a => upd a v) v)
      | none => buildVal upd init (l.filter (fun a => key a = k)) := by
  induction l generalizing acc with
  | nil =>
    cases h : alook k acc <;> simp [h, buildVal]
  | cons a as ih =>
    simp only [List.foldl_cons]
    rw [ih]
    rw [alook_updateOrAppend]
    by_cases hk : key a = k
    · have hk' : (k = key a) := hk.symm
      rw [if_pos hk']
      cases h : alook k acc with
      | some v => simp [List.filter_cons, hk, h]
      | none => simp [List.filter_cons, hk, h, buildVal]
    · have hk' : ¬ (k = key a) := fun h => hk h.symm
      rw [if_neg hk']
      cases h : alook k acc <;> simp [List.filter_cons, hk, h]

theorem groupFold_alook (l : List A) (k : K) :
    alook k (groupFold key upd init l) =
      buildVal upd init (l.filter (fun a => key a = k)) := by
  unfold groupFold
  rw [foldl_step_alook]
  simp [alook]

theorem groupFold_keys_nodup (l : List A) :
    ((groupFold key upd init l).map Prod.fst).Nodup := by
  unfold groupFold
  generalize hacc : ([] : List (K × V)) = acc
  have h : (acc.map Prod.fst).Nodup := by simp [← hacc]
  clear hacc
  induction l generalizing acc with
  | nil => simpa using h
  | cons a as ih =>
    simp only [List.foldl_cons]
    exact ih _ (nodup_keys_updateOrAppend _ _ _ _ h)

theorem mem_groupFold_values {l : List A} {v : V}
    (h : v ∈ (groupFold key upd init l).map Prod.snd) :
    ∃ k, alook k (groupFold key upd init l) = some v := by
  rcases List.mem_map.1 h with ⟨⟨k, v'⟩, hmem, hv⟩
  cases hv
  exact ⟨k, mem_alook hmem (groupFold_keys_nodup key upd init l)⟩

theorem groupFold_values_mem {l : List A} {k : K} {v : V}
    (h : alook k (groupFold key upd init l) = some v) :
    v ∈ (groupFold key upd init l).map Prod.snd :=
  List.mem_map_of_mem Prod.snd (alook_mem h)

end GroupingLemmas

/-! ### Arithmetic facts about the duration key -/

theorem durKey_inj (m₁ m₂ : ℤ) (h : durKey m₁ = durKey m₂) : m₁ = m₂ := by
  unfold durKey at h
  rw [Int.fdiv_eq_ediv _ (by norm_num), Int.fdiv_eq_ediv _ (by norm_num)] at h
  omega

/-- The integer duration key agrees with the source's
`Math.round(durationHours * 100)` where `durationHours = m / 60`. -/
theorem durKey_eq_round (m : ℤ) : durKey m = round (((m : ℚ) / 60) * 100) := by
  rw [round_eq]
  have h : ((m : ℚ) / 60) * 100 + 1 / 2 = ((10 * m + 3 : ℤ) : ℚ) / ((6 : ℕ) : ℚ) := by
    push_cast
    ring
  rw [h, Rat.floor_intCast_div_natCast, durKey, Int.fdiv_eq_ediv _ (by norm_num)]
  norm_num

/-! ### Facts about `sortDays` -/

theorem day_mem_ALPHA (d : Day) : d ∈ ALPHA_DAYS := by cases d <;> decide

theorem day_mem_ORDERED (d : Day) : d ∈ ORDERED_DAYS := by cases d <;> decide

theorem mem_sortDays {d : Day} {l : List Day} : d ∈ sortDays l ↔ d ∈ l := by
  unfold sortDays
  simp [day_mem_ALPHA d]

theorem sortDays_nodup (l : List Day) : (sortDays l).Nodup :=
  List.Nodup.filter _ (by decide)

theorem sortDays_congr {l₁ l₂ : List Day} (h : ∀ d, (d ∈ l₁ ↔ d ∈ l₂)) :
    sortDays l₁ = sortDays l₂ := by
  unfold sortDays
  refine List.filter_congr fun d _ => ?_
  simp [h d]

/-! ### Content of the two compaction passes -/

theorem pass1_fold_days (es : List WindowEntry) (g₀ : Group1) (d : Day) :
    d ∈ (es.foldl (fun g e =>
        if e.day ∈ g.days then g else { g with days := g.days ++ [e.day] }) g₀).days ↔
      (d ∈ g₀.days ∨ ∃ e ∈ es, e.day = d) := by
  induction es generalizing g₀ with
  | nil => simp
  | cons e es ih =>
    simp only [List.foldl_cons]
    by_cases he : e.day ∈ g₀.days
    · rw [if_pos he, ih]
      constructor
      · rintro (h | ⟨e', he', hd⟩)
        · exact Or.inl h
        · exact Or.inr ⟨e', List.mem_cons_of_mem _ he', hd⟩
      · rintro (h | ⟨e', he', hd⟩)
        · exact Or.inl h
        · rcases List.mem_cons.1 he' with rfl | hmem
          · exact Or.inl (hd ▸ he)
          · exact Or.inr ⟨e', hmem, hd⟩
    · rw [if_neg he, ih]
      constructor
      · rintro (h | ⟨e', he', hd⟩)
        · rcases List.mem_append.1 h with h | h
          · exact Or.inl h
          · simp only [List.mem_singleton] at h
            exact Or.inr ⟨e, List.mem_cons_self _ _, h.symm⟩
        · exact Or.inr ⟨e', List.mem_cons_of_mem _ he', hd⟩
      · rintro (h | ⟨e', he', hd⟩)
        · exact Or.inl (List.mem_append.2 (Or.inl h))
        · rcases List.mem_cons.1 he' with rfl | hmem
          · exact Or.inl (List.mem_append.2 (Or.inr (by simp [hd])))
          · exact Or.inr ⟨e', hmem, hd⟩

theorem pass1_fold_fields (es : List WindowEntry) (g₀ : Group1) :
    (es.foldl (fun g e =>
        if e.day ∈ g.days then g else { g with days := g.days ++ [e.day] }) g₀).startTime
        = g₀.startTime ∧
    (es.foldl (fun g e =>
        if e.day ∈ g.days then g else { g with days := g.days ++ [e.day] }) g₀).durationMin
        = g₀.durationMin := by
  induction es generalizing g₀ with
  | nil => exact ⟨rfl, rfl⟩
  | cons e es ih =>
    simp only [List.foldl_cons]
    by_cases he : e.day ∈ g₀.days
    · rw [if_pos he]
      exact ih g₀
    · rw [if_neg he]
      exact ih _

theorem pass2_fold_times (gs : List Group1) (sg₀ : Group2) :
    (gs.foldl (fun sg g => { sg with times := sg.times ++ [g.startTime] }) sg₀).times
      = sg₀.times ++ gs.map Group1.startTime := by
  induction gs generalizing sg₀ with
  | nil => simp
  | cons g gs ih =>
    simp only [List.foldl_cons, ih, List.map_cons]
    simp

theorem pass2_fold_fields (gs : List Group1) (sg₀ : Group2) :
    (gs.foldl (fun sg g => { sg with times := sg.times ++ [g.startTime] }) sg₀).days
      = sg₀.days ∧
    (gs.foldl (fun sg g => { sg with times := sg.times ++ [g.startTime] }) sg₀).durationMin
      = sg₀.durationMin := by
  induction gs generalizing sg₀ with
  | nil => exact ⟨rfl, rfl⟩
  | cons g gs ih =>
    simp only [List.foldl_cons]
    exact ih _

/-! ### Characterization of the first pass -/

theorem groupPass1_alook_some {l : List WindowEntry} {k : ℤ × ℤ} {g : Group1}
    (h : alook k (groupPass1 l) = some g) :
    g.startTime = k.1 ∧ durKey g.durationMin = k.2 ∧
    (∀ d, d ∈ g.days ↔ ∃ e ∈ l, key1 e = k ∧ e.day = d) ∧
    ∃ e ∈ l, key1 e = k ∧ e.durationMin = g.durationMin := by
  rw [groupPass1, groupFold_alook] at h
  cases hf : l.filter (fun e => key1 e = k) with
  | nil =>
    rw [hf] at h
    simp [buildVal] at h
  | cons e₀ es =>
    rw [hf] at h
    simp only [buildVal, Option.some.injEq] at h
    have hmemf : ∀ e', e' ∈ l.filter (fun e => key1 e = k) ↔ (e' ∈ l ∧ key1 e' = k) := by
      intro e'
      simp [List.mem_filter]
    have he₀ : e₀ ∈ l ∧ key1 e₀ = k := (hmemf e₀).1 (hf ▸ List.mem_cons_self _ _)
    have hfields := pass1_fold_fields es ⟨e₀.startTime, e₀.durationMin, [e₀.day]⟩
    have hst : g.startTime = e₀.startTime := by rw [← h]; exact hfields.1
    have hdm : g.durationMin = e₀.durationMin := by rw [← h]; exact hfields.2
    refine ⟨?_, ?_, ?_, e₀, he₀.1, he₀.2, hdm.symm⟩
    · rw [hst, ← he₀.2]
      rfl
    · rw [hdm, ← he₀.2]
      rfl
    · intro d
      have hdays := pass1_fold_days es ⟨e₀.startTime, e₀.durationMin, [e₀.day]⟩ d
      rw [← h]
      rw [hdays]
      constructor
      · rintro (hd | ⟨e', he', hd⟩)
        · simp only [List.mem_singleton] at hd
          exact ⟨e₀, he₀.1, he₀.2, hd.symm⟩
        · have := (hmemf e').1 (hf ▸ List.mem_cons_of_mem _ he')
          exact ⟨e', this.1, this.2, hd⟩
      · rintro ⟨e', hel, hek, hd⟩
        have : e' ∈ e₀ :: es := hf ▸ (hmemf e').2 ⟨hel, hek⟩
        rcases List.mem_cons.1 this with rfl | hmem
        · exact Or.inl (by simp [hd])
        · exact Or.inr ⟨e', hmem, hd⟩

theorem groupPass1_alook_of_mem {l : List WindowEntry} {e : WindowEntry} (he : e ∈ l) :
    ∃ g, alook (key1 e) (groupPass1 l) = some g := by
  rw [groupPass1, groupFold_alook]
  have hmem : e ∈ l.filter (fun e' => key1 e' = key1 e) :=
    List.mem_filter.2 ⟨he, by simp⟩
  cases hf : l.filter (fun e' => key1 e' = key1 e) with
  | nil =>
    rw [hf] at hmem
    simp at hmem
  | cons e₀ es =>
    exact ⟨_, rfl⟩

theorem groupPass1_mem_snd {l : List WindowEntry} {g : Group1}
    (h : g ∈ (groupPass1 l).map Prod.snd) :
    alook (g.startTime, durKey g.durationMin) (groupPass1 l) = some g := by
  rw [groupPass1] at h ⊢
  obtain ⟨k, hk⟩ := mem_groupFold_values _ _ _ h
  have hc := groupPass1_alook_some (by rw [groupPass1]; exact hk)
  have : k = (g.startTime, durKey g.durationMin) := by
    obtain ⟨h1, h2, _, _⟩ := hc
    cases k
    simp only [Prod.mk.injEq]
    exact ⟨h1.symm, h2.symm⟩
  rw [← this]
  exact hk

/-! ### Characterization of the second pass -/

theorem groupPass2_alook_some {gs : List Group1} {k : List Day × ℤ} {sg : Group2}
    (h : alook k (groupPass2 gs) = some sg) :
    sg.days = k.1 ∧ durKey sg.durationMin = k.2 ∧
    (∀ s, s ∈ sg.times ↔ ∃ g ∈ gs, key2 g = k ∧ g.startTime = s) ∧
    sg.times ≠ [] ∧
    ∃ g ∈ gs, key2 g = k ∧ g.durationMin = sg.durationMin := by
  rw [groupPass2, groupFold_alook] at h
  cases hf : gs.filter (fun g => key2 g = k) with
  | nil =>
    rw [hf] at h
    simp [buildVal] at h
  | cons g₀ es =>
    rw [hf] at h
    simp only [buildVal, Option.some.injEq] at h
    have hmemf : ∀ g', g' ∈ gs.filter (fun g => key2 g = k) ↔ (g' ∈ gs ∧ key2 g' = k) := by
      intro g'
      simp [List.mem_filter]
    have hg₀ : g₀ ∈ gs ∧ key2 g₀ = k := (hmemf g₀).1 (hf ▸ List.mem_cons_self _ _)
    have hfields := pass2_fold_fields es ⟨sortDays g₀.days, g₀.durationMin, [g₀.startTime]⟩
    have htimes := pass2_fold_times es ⟨sortDays g₀.days, g₀.durationMin, [g₀.startTime]⟩
    have hdays : sg.days = sortDays g₀.days := by rw [← h]; exact hfields.1
    have hdm : sg.durationMin = g₀.durationMin := by rw [← h]; exact hfields.2
    have htl : sg.times = (g₀ :: es).map Group1.startTime := by
      rw [← h, htimes]
      simp
    refine ⟨?_, ?_, ?_, ?_, g₀, hg₀.1, hg₀.2, hdm.symm⟩
    · rw [hdays, ← hg₀.2]
      rfl
    · rw [hdm, ← hg₀.2]
      rfl
    · intro s
      rw [htl]
      constructor
      · intro hs
        obtain ⟨g', hg', hst⟩ := List.mem_map.1 hs
        have := (hmemf g').1 (hf ▸ hg')
        exact ⟨g', this.1, this.2, hst⟩
      · rintro ⟨g', hgs, hk2, hst⟩
        have : g' ∈ g₀ :: es := hf ▸ (hmemf g').2 ⟨hgs, hk2⟩
        exact List.mem_map.2 ⟨g', this, hst⟩
    · rw [htl]
      simp

theorem groupPass2_alook_of_mem {gs : List Group1} {g : Group1} (hg : g ∈ gs) :
    ∃ sg, alook (key2 g) (groupPass2 gs) = some sg := by
  rw [groupPass2, groupFold_alook]
  have hmem : g ∈ gs.filter (fun g' => key2 g' = key2 g) :=
    List.mem_filter.2 ⟨hg, by simp⟩
  cases hf : gs.filter (fun g' => key2 g' = key2 g) with
  | nil =>
    rw [hf] at hmem
    simp at hmem
  | cons g₀ es =>
    exact ⟨_, rfl⟩

theorem groupPass2_mem_snd {gs : List Group1} {sg : Group2}
    (h : sg ∈ (groupPass2 gs).map Prod.snd) :
    alook (sg.days, durKey sg.durationMin) (groupPass2 gs) = some sg := by
  rw [groupPass2] at h ⊢
  obtain ⟨k, hk⟩ := mem_groupFold_values _ _ _ h
  have hc := groupPass2_alook_some (by rw [groupPass2]; exact hk)
  have : k = (sg.days, durKey sg.durationMin) := by
    obtain ⟨h1, h2, _, _⟩ := hc
    cases k
    simp only [Prod.mk.injEq]
    exact ⟨h1.symm, h2.symm⟩
  rw [← this]
  exact hk

/-! ### Content of the emitted entries -/

theorem builtOf_mem_iff {l : List WindowEntry} {b : BuiltEntry} :
    b ∈ builtOfEntries l ↔ ∃ sg ∈ (groupPass2 ((groupPass1 l).map Prod.snd)).map Prod.snd,
      b = ⟨sg.days, sg.times, sg.durationMin⟩ := by
  unfold builtOfEntries
  constructor
  · intro h
    obtain ⟨sg, hsg, rfl⟩ := List.mem_map.1 h
    exact ⟨sg, hsg, rfl⟩
  · rintro ⟨sg, hsg, rfl⟩
    exact List.mem_map_of_mem _ hsg

theorem group1_days_nonempty {l : List WindowEntry} {g : Group1}
    (h : g ∈ (groupPass1 l).map Prod.snd) : g.days ≠ [] := by
  have hg := groupPass1_mem_snd h
  obtain ⟨_, _, hdays, e, hel, hek, _⟩ := groupPass1_alook_some hg
  have : e.day ∈ g.days := (hdays e.day).2 ⟨e, hel, hek, rfl⟩
  exact List.ne_nil_of_mem this

theorem builtOf_of_entry {l : List WindowEntry} {e : WindowEntry} (he : e ∈ l) :
    ∃ b ∈ builtOfEntries l, e.day ∈ b.dayOfWeek ∧ e.startTime ∈ b.timeOfDay ∧
      b.duration = e.durationMin := by
  obtain ⟨g, hg⟩ := groupPass1_alook_of_mem he
  obtain ⟨hst, hdk, hdays, e', hel', hek', hdur'⟩ := groupPass1_alook_some hg
  have hgst : g.startTime = e.startTime := hst
  have hgdm : g.durationMin = e.durationMin := by
    apply durKey_inj
    rw [hdk]
    rfl
  have hday : e.day ∈ g.days := (hdays e.day).2 ⟨e, he, rfl, rfl⟩
  have hgmem : g ∈ (groupPass1 l).map Prod.snd := by
    rw [groupPass1] at hg ⊢
    exact groupFold_values_mem _ _ _ hg
  obtain ⟨sg, hsg⟩ := groupPass2_alook_of_mem hgmem
  obtain ⟨hsd, hsdk, htimes, hne, g', hg', hk2', hdur2'⟩ := groupPass2_alook_some hsg
  have hsgdays : sg.days = sortDays g.days := hsd
  have hsgdm : sg.durationMin = g.durationMin := by
    apply durKey_inj
    rw [hsdk]
    rfl
  have hstime : e.startTime ∈ sg.times := (htimes e.startTime).2 ⟨g, hgmem, rfl, hgst⟩
  have hsmem : sg ∈ (groupPass2 ((groupPass1 l).map Prod.snd)).map Prod.snd := by
    rw [groupPass2] at hsg ⊢
    exact groupFold_values_mem _ _ _ hsg
  refine ⟨⟨sg.days, sg.times, sg.durationMin⟩, builtOf_mem_iff.2 ⟨sg, hsmem, rfl⟩, ?_, hstime, ?_⟩
  · rw [hsgdays]
    exact mem_sortDays.2 hday
  · rw [hsgdm, hgdm]

theorem entry_of_builtOf {l : List WindowEntry} {b : BuiltEntry} (hb : b ∈ builtOfEntries l) :
    ∀ d ∈ b.dayOfWeek, ∀ s ∈ b.timeOfDay,
      ∃ e ∈ l, e.day = d ∧ e.startTime = s ∧ e.durationMin = b.duration := by
  obtain ⟨sg, hsgmem, rfl⟩ := builtOf_mem_iff.1 hb
  intro d hd s hs
  have hsg := groupPass2_mem_snd hsgmem
  obtain ⟨hsd, hsdk, htimes, hne, gd, hgd_mem, hgd_k, hgd_d⟩ := groupPass2_alook_some hsg
  obtain ⟨g, hgmem, hk2, hst⟩ := (htimes s).1 hs
  have hgdm : g.durationMin = sg.durationMin := by
    apply durKey_inj
    have h2 : (key2 g).2 = durKey sg.durationMin := by rw [hk2]
    simpa [key2] using h2
  have hdg : d ∈ g.days := by
    have h1 : (key2 g).1 = sg.days := by rw [hk2]
    have : d ∈ sortDays g.days := by
      simp only [key2] at h1
      rw [h1]
      exact hd
    exact mem_sortDays.1 this
  have hg1 := groupPass1_mem_snd hgmem
  obtain ⟨h1st, h1dk, h1days, e₀', he₀l, he₀k, he₀d⟩ := groupPass1_alook_some hg1
  obtain ⟨e, hel, hek, hed⟩ := (h1days d).1 hdg
  have hest : e.startTime = g.startTime := by
    have : (key1 e).1 = g.startTime := by rw [hek]
    simpa [key1] using this
  have hedm : e.durationMin = g.durationMin := by
    apply durKey_inj
    have : (key1 e).2 = durKey g.durationMin := by rw [hek]
    simpa [key1] using this
  exact ⟨e, hel, hed, by rw [hest, hst], by rw [hedm, hgdm]⟩

theorem builtOf_wellformed {l : List WindowEntry} {b : BuiltEntry} (hb : b ∈ builtOfEntries l) :
    b.timeOfDay ≠ [] ∧ b.dayOfWeek.Nodup ∧ b.dayOfWeek ≠ [] := by
  obtain ⟨sg, hsgmem, rfl⟩ := builtOf_mem_iff.1 hb
  have hsg := groupPass2_mem_snd hsgmem
  obtain ⟨hsd, hsdk, htimes, hne, g, hgmem, hgk, hgd⟩ := groupPass2_alook_some hsg
  have hdays : sortDays g.days = sg.days := by
    have : (key2 g).1 = sg.days := by rw [hgk]
    simpa [key2] using this
  refine ⟨hne, ?_, ?_⟩
  · rw [show (BuiltEntry.mk sg.days sg.times sg.durationMin).dayOfWeek = sg.days from rfl,
      ← hdays]
    exact sortDays_nodup _
  · have hgne := group1_days_nonempty hgmem
    obtain ⟨d₀, hd₀⟩ := List.exists_mem_of_ne_nil _ hgne
    have : d₀ ∈ sg.days := by
      rw [← hdays]
      exact mem_sortDays.2 hd₀
    exact List.ne_nil_of_mem this

/-! ### Characterization of the decoder on encoder output -/

theorem get_update (w : WeekSchedule) (d' : Day) (f : DaySchedule → DaySchedule) (d : Day) :
    (w.update d' f).get d = if d = d' then f (w.get d') else w.get d := by
  cases d' <;> cases d <;> simp [WeekSchedule.update, WeekSchedule.get]

theorem weekAllOff_get (d : Day) : weekAllOff.get d = ⟨false, []⟩ := by
  cases d <;> rfl

theorem foldl_update_days (days : List Day) (hnd : days.Nodup) (f : DaySchedule → DaySchedule)
    (W : WeekSchedule) (d : Day) :
    ((days.foldl (fun week day => week.update day f) W).get d)
      = if d ∈ days then f (W.get d) else W.get d := by
  induction days generalizing W with
  | nil => simp
  | cons d₀ rest ih =>
    simp only [List.foldl_cons]
    simp only [List.nodup_cons] at hnd
    rw [ih hnd.2]
    by_cases hd : d ∈ rest
    · have hne : d ≠ d₀ := fun h => hnd.1 (h ▸ hd)
      rw [if_pos hd, if_pos (List.mem_cons_of_mem _ hd), get_update, if_neg hne]
    · by_cases hd0 : d = d₀
      · subst hd0
        rw [if_neg hd, if_pos (List.mem_cons_self _ _), get_update, if_pos rfl]
      · rw [if_neg hd, get_update, if_neg hd0, if_neg (by simp [hd, hd0])]

theorem foldl_congr_fun {α β : Type} {l : List α} {f g : β → α → β} {b : β}
    (h : ∀ acc a, f acc a = g acc a) : l.foldl f b = l.foldl g b := by
  induction l generalizing b with
  | nil => rfl
  | cons a as ih => simp only [List.foldl_cons, h]; exact ih

theorem availSubs_map_built (bs : List BuiltEntry) :
    availSubs (bs.map (fun b => SubExt.availabilitySub (some (toRepeat b)))) =
      bs.map (fun b => some (toRepeat b)) := by
  induction bs with
  | nil => rfl
  | cons b bs ih => simp [availSubs] at ih ⊢; exact ih

theorem parse_fold_char (bs : List BuiltEntry) (hnd : ∀ b ∈ bs, b.dayOfWeek.Nodup)
    (W : WeekSchedule) (d : Day) :
    ((bs.foldl (fun week b =>
        b.dayOfWeek.foldl (fun week day =>
          week.update day (fun ds =>
            ⟨true, ds.timeWindows ++ b.timeOfDay.map (fun t => fhirToTimeWindow t b.duration)⟩))
          week) W).get d)
      = ⟨((W.get d).enabled || bs.any (fun b => decide (d ∈ b.dayOfWeek))),
         (W.get d).timeWindows ++ bs.flatMap (fun b =>
           if d ∈ b.dayOfWeek then b.timeOfDay.map (fun t => fhirToTimeWindow t b.duration)
           else [])⟩ := by
  induction bs generalizing W with
  | nil => simp
  | cons b bs ih =>
    simp only [List.foldl_cons]
    rw [ih (fun b' hb' => hnd b' (List.mem_cons_of_mem _ hb'))]
    rw [foldl_update_days b.dayOfWeek (hnd b (List.mem_cons_self _ _)) _ W d]
    by_cases hd : d ∈ b.dayOfWeek
    · simp [hd, List.append_assoc]
    · simp [hd]

theorem decodeEncode_get (w : WeekSchedule) (d : Day) :
    (decodeEncode w).get d =
      ⟨(buildAvailabilityExtensions w).any (fun b => decide (d ∈ b.dayOfWeek)),
       (buildAvailabilityExtensions w).flatMap (fun b =>
         if d ∈ b.dayOfWeek then b.timeOfDay.map (fun t => fhirToTimeWindow t b.duration)
         else [])⟩ := by
  have hnd : ∀ b ∈ buildAvailabilityExtensions w, b.dayOfWeek.Nodup := fun b hb =>
    (builtOf_wellformed (by rwa [← buildWith_eq_builtOf])).2.1
  unfold decodeEncode parseWeekScheduleFromExtension
  rw [availSubs_map_built]
  rw [List.foldl_map]
  have hstep : ∀ (week : WeekSchedule) (b : BuiltEntry),
      (fun (week : WeekSchedule) (avail : Option AvailRepeat) =>
        match avail with
        | none => week
        | some rpt =>
          (rpt.dayOfWeek.getD []).foldl (fun week day =>
            week.update day (fun ds =>
              ⟨true, ds.timeWindows ++ (rpt.timeOfDay.getD [540]).map
                (fun t => fhirToTimeWindow t (rpt.duration.getD 480))⟩)) week)
        week (some (toRepeat b)) =
      b.dayOfWeek.foldl (fun week day =>
        week.update day (fun ds =>
          ⟨true, ds.timeWindows ++ b.timeOfDay.map (fun t => fhirToTimeWindow t b.duration)⟩))
        week := by
    intro week b
    rfl
  rw [foldl_congr_fun (fun acc b => hstep acc b)]
  rw [foldl_update_days ORDERED_DAYS (by decide) _ _ d, if_pos (day_mem_ORDERED d)]
  rw [parse_fold_char _ hnd weekAllOff d, weekAllOff_get]
  simp only [Bool.false_or, List.nil_append]
  by_cases hany : (buildAvailabilityExtensions w).any (fun b => decide (d ∈ b.dayOfWeek)) = true
  · have hne : (buildAvailabilityExtensions w).flatMap (fun b =>
        if d ∈ b.dayOfWeek then b.timeOfDay.map (fun t => fhirToTimeWindow t b.duration)
        else []) ≠ [] := by
      simp only [List.any_eq_true, decide_eq_true_eq] at hany
      obtain ⟨b, hb, hdb⟩ := hany
      have htne : b.timeOfDay ≠ [] :=
        (builtOf_wellformed (l := windowEntries ORDERED_DAYS w)
          (by rwa [← buildWith_eq_builtOf])).1
      obtain ⟨t, ht⟩ := List.exists_mem_of_ne_nil _ htne
      refine List.ne_nil_of_mem (a := fhirToTimeWindow t b.duration) ?_
      exact List.mem_flatMap.2 ⟨b, hb, by rw [if_pos hdb]; exact List.mem_map_of_mem _ ht⟩
    rw [if_neg (by simp [hne])]
  · rw [if_neg (by simp [hany])]

/-! ### Per-window round trip -/

theorem validWindow_durationMin {tw : TimeWindow} (h : validWindow tw) :
    1 ≤ timeWindowDurationMin tw ∧ timeWindowDurationMin tw ≤ 1440 := by
  obtain ⟨⟨hs0, hs1⟩, ⟨he0, he1⟩⟩ := h
  unfold timeWindowDurationMin
  dsimp only
  split <;> omega

theorem windowEntries_valid {order : List Day} {w : WeekSchedule} (hw : validWeek w) :
    ∀ e ∈ windowEntries order w, validEntry e := by
  intro e he
  unfold windowEntries at he
  obtain ⟨d, hd, he⟩ := List.mem_flatMap.1 he
  by_cases hen : (w.get d).enabled = true
  · rw [if_pos hen] at he
    obtain ⟨tw, htw, rfl⟩ := List.mem_map.1 he
    have hv := hw d (day_mem_ORDERED d) tw htw
    exact ⟨hv.1, (validWindow_durationMin hv).1, (validWindow_durationMin hv).2⟩
  · rw [if_neg hen] at he
    simp at he

theorem windowPair_fhir (s m : ℤ) (hs : validTime s) (hm1 : 1 ≤ m) (hm2 : m ≤ 1440) :
    windowPair (fhirToTimeWindow s m) = (s, m) := by
  obtain ⟨hs0, hs1⟩ := hs
  unfold windowPair fhirToTimeWindow timeWindowDurationMin minutesToTime
  rw [Int.fdiv_eq_ediv _ (by norm_num)]
  simp only [Prod.mk.injEq]
  refine ⟨by trivial, ?_⟩
  split <;> omega

theorem mem_windowEntries {order : List Day} {w : WeekSchedule} {e : WindowEntry} :
    e ∈ windowEntries order w ↔ ∃ d ∈ order, (w.get d).enabled = true ∧
      ∃ tw ∈ (w.get d).timeWindows, e = ⟨d, tw.startTime, timeWindowDurationMin tw⟩ := by
  unfold windowEntries
  simp only [List.mem_flatMap]
  constructor
  · rintro ⟨d, hd, he⟩
    by_cases hen : (w.get d).enabled = true
    · rw [if_pos hen] at he
      obtain ⟨tw, htw, rfl⟩ := List.mem_map.1 he
      exact ⟨d, hd, hen, tw, htw, rfl⟩
    · rw [if_neg hen] at he
      simp at he
  · rintro ⟨d, hd, hen, tw, htw, rfl⟩
    exact ⟨d, hd, by rw [if_pos hen]; exact List.mem_map_of_mem _ htw⟩

/-! ### C1 -/

/-- C1 counterexample: a Monday carrying the same 09:00–10:00 window twice
decodes back from its encoding to a single window — the multiset of
`(startMinute, durationMinutes)` pairs is not preserved (the encoder's
first grouping pass drops the duplicate day via its `includes` check). -/
theorem decode_encode_loses_duplicate_window :
    ¬ ((((decodeEncode weekDupWindows).get .mon).timeWindows.map windowPair).Perm
        ((weekDupWindows.get .mon).timeWindows.map windowPair)) ∧
    (weekDupWindows.get .mon).enabled = true ∧
    ((weekDupWindows.get .mon).timeWindows.map windowPair) = [(540, 60), (540, 60)] ∧
    (((decodeEncode weekDupWindows).get .mon).timeWindows.map windowPair) = [(540, 60)] := by
  refine ⟨by decide, by decide, by decide, by decide⟩

/-- C1 as amended: for every well-formed `WeekSchedule` (all window times
valid "HH:MM" values), decoding the encoded form preserves, for every
enabled day, the exact set of `(startMinute, durationMinutes)` window pairs
(duplicates collapse; durations round-trip exactly, the rounding to 1/100
hour being injective on whole-minute durations). -/
theorem decode_encode_pairs (w : WeekSchedule) (hw : validWeek w) :
    ∀ d ∈ ORDERED_DAYS, (w.get d).enabled = true →
      pairFinset ((decodeEncode w).get d) = pairFinset (w.get d) := by
  intro d hd hen
  have hval := @windowEntries_valid ORDERED_DAYS w hw
  have hbs : buildAvailabilityExtensions w = builtOfEntries (windowEntries ORDERED_DAYS w) :=
    buildWith_eq_builtOf _ _
  rw [decodeEncode_get]
  apply Finset.ext
  intro p
  simp only [pairFinset, List.mem_toFinset, List.mem_map]
  constructor
  · rintro ⟨tw, htw, rfl⟩
    obtain ⟨b, hb, htw'⟩ := List.mem_flatMap.1 htw
    by_cases hdb : d ∈ b.dayOfWeek
    · rw [if_pos hdb] at htw'
      obtain ⟨t, ht, rfl⟩ := List.mem_map.1 htw'
      obtain ⟨e, hel, hed, hes, hedur⟩ := entry_of_builtOf (hbs ▸ hb) d hdb t ht
      have hv := hval e hel
      obtain ⟨d', hd', hen', tw₀, htw₀, he⟩ := mem_windowEntries.1 hel
      have hday : d' = d := by rw [← hed, he]
      subst hday
      refine ⟨tw₀, htw₀, ?_⟩
      rw [windowPair_fhir t b.duration (by rw [← hes]; exact hv.1)
        (by rw [← hedur]; exact hv.2.1) (by rw [← hedur]; exact hv.2.2)]
      have h1 : tw₀.startTime = t := by rw [← hes, he]
      have h2 : timeWindowDurationMin tw₀ = b.duration := by rw [← hedur, he]
      rw [windowPair, h1, h2]
    · rw [if_neg hdb] at htw'
      simp at htw'
  · rintro ⟨tw, htw, rfl⟩
    have hel : (⟨d, tw.startTime, timeWindowDurationMin tw⟩ : WindowEntry)
        ∈ windowEntries ORDERED_DAYS w :=
      mem_windowEntries.2 ⟨d, hd, hen, tw, htw, rfl⟩
    obtain ⟨b, hb, hdb, hsb, hdur⟩ := builtOf_of_entry hel
    have hv := hval _ hel
    refine ⟨fhirToTimeWindow tw.startTime b.duration, ?_, ?_⟩
    · refine List.mem_flatMap.2 ⟨b, by rw [hbs]; exact hb, ?_⟩
      rw [if_pos hdb]
      exact List.mem_map_of_mem _ hsb
    · rw [windowPair_fhir tw.startTime b.duration hv.1
        (by rw [hdur]; exact hv.2.1) (by rw [hdur]; exact hv.2.2)]
      rw [windowPair, hdur]

theorem decode_encode_pairs_witness :
    validWeek weekFiveNine ∧ (weekFiveNine.get .wed).enabled = true ∧
    pairFinset ((decodeEncode weekFiveNine).get .wed) = pairFinset (weekFiveNine.get .wed) :=
  ⟨by decide, by decide,
    decode_encode_pairs weekFiveNine (by decide) .wed (by decide) (by decide)⟩

/-! ### The canonical entry set is determined by the window content -/

theorem mem_tripleFinset {l : List WindowEntry} {d : Day} {s q : ℤ} :
    (d, s, q) ∈ tripleFinset l ↔
      ∃ e ∈ l, e.day = d ∧ e.startTime = s ∧ e.durationMin = q := by
  unfold tripleFinset entryTriple
  simp [List.mem_toFinset, List.mem_map, Prod.ext_iff]

theorem group1_char {l : List WindowEntry} {g : Group1}
    (hg : g ∈ (groupPass1 l).map Prod.snd) :
    ∀ d, d ∈ g.days ↔
      ∃ e ∈ l, e.day = d ∧ e.startTime = g.startTime ∧ e.durationMin = g.durationMin := by
  have h := groupPass1_mem_snd hg
  obtain ⟨_, _, hdays, _⟩ := groupPass1_alook_some h
  intro d
  rw [hdays d]
  constructor
  · rintro ⟨e, hel, hek, hed⟩
    refine ⟨e, hel, hed, congrArg Prod.fst hek, durKey_inj _ _ (congrArg Prod.snd hek)⟩
  · rintro ⟨e, hel, hed, h1, h2⟩
    refine ⟨e, hel, ?_, hed⟩
    unfold key1
    rw [h1, h2]

theorem group1_of_entry {l : List WindowEntry} {e : WindowEntry} (he : e ∈ l) :
    ∃ g ∈ (groupPass1 l).map Prod.snd,
      g.startTime = e.startTime ∧ g.durationMin = e.durationMin ∧ e.day ∈ g.days := by
  obtain ⟨g, hg⟩ := groupPass1_alook_of_mem he
  obtain ⟨hst, hdk, hdays, _⟩ := groupPass1_alook_some hg
  have hgmem : g ∈ (groupPass1 l).map Prod.snd := by
    rw [groupPass1] at hg ⊢
    exact groupFold_values_mem _ _ _ hg
  exact ⟨g, hgmem, hst, durKey_inj _ _ hdk, (hdays e.day).2 ⟨e, he, rfl, rfl⟩⟩

theorem sortDays_eq_daysOfList {l : List WindowEntry} {g : Group1}
    (hchar : ∀ d, d ∈ g.days ↔
      ∃ e ∈ l, e.day = d ∧ e.startTime = g.startTime ∧ e.durationMin = g.durationMin) :
    sortDays g.days = daysOfList (tripleFinset l) g.startTime g.durationMin := by
  unfold sortDays daysOfList
  refine List.filter_congr fun d _ => ?_
  simp only [decide_eq_decide]
  rw [hchar d, mem_tripleFinset]

theorem builtOf_content {l : List WindowEntry} {b : BuiltEntry} (hb : b ∈ builtOfEntries l)
    {s : ℤ} (hs : s ∈ b.timeOfDay) :
    b.dayOfWeek = daysOfList (tripleFinset l) s b.duration := by
  obtain ⟨sg, hsgmem, rfl⟩ := builtOf_mem_iff.1 hb
  have hsg := groupPass2_mem_snd hsgmem
  obtain ⟨_, _, htimes, _, _⟩ := groupPass2_alook_some hsg
  obtain ⟨g, hgmem, hk2, hst⟩ := (htimes s).1 hs
  have hgdur : g.durationMin = sg.durationMin :=
    durKey_inj _ _ (congrArg Prod.snd hk2)
  have hgdays : sortDays g.days = sg.days := congrArg Prod.fst hk2
  have hchar := group1_char hgmem
  show sg.days = daysOfList (tripleFinset l) s sg.durationMin
  rw [← hgdays, sortDays_eq_daysOfList hchar, hst, hgdur]

theorem builtOf_times {l : List WindowEntry} {b : BuiltEntry} (hb : b ∈ builtOfEntries l)
    (s : ℤ) :
    s ∈ b.timeOfDay ↔ ∃ d, (d, s, b.duration) ∈ tripleFinset l ∧
      daysOfList (tripleFinset l) s b.duration = b.dayOfWeek := by
  obtain ⟨sg, hsgmem, rfl⟩ := builtOf_mem_iff.1 hb
  have hsg := groupPass2_mem_snd hsgmem
  obtain ⟨_, _, htimes, _, _⟩ := groupPass2_alook_some hsg
  constructor
  · intro hs
    obtain ⟨g, hgmem, hk2, hst⟩ := (htimes s).1 hs
    have hgdur : g.durationMin = sg.durationMin :=
      durKey_inj _ _ (congrArg Prod.snd hk2)
    have hgdays : sortDays g.days = sg.days := congrArg Prod.fst hk2
    have hchar := group1_char hgmem
    have hgne := group1_days_nonempty hgmem
    obtain ⟨d₀, hd₀⟩ := List.exists_mem_of_ne_nil _ hgne
    obtain ⟨e, hel, hed, hes, hedur⟩ := (hchar d₀).1 hd₀
    refine ⟨d₀, ?_, ?_⟩
    · exact mem_tripleFinset.2 ⟨e, hel, hed, by rw [hes, hst], by rw [hedur, hgdur]⟩
    · show daysOfList (tripleFinset l) s sg.durationMin = sg.days
      rw [← hst, ← hgdur, ← sortDays_eq_daysOfList hchar, hgdays]
  · rintro ⟨d, hdS, hdays⟩
    obtain ⟨e, hel, hed, hes, hedur⟩ := mem_tripleFinset.1 hdS
    obtain ⟨g, hgmem, hgs, hgd, hgday⟩ := group1_of_entry hel
    have hchar := group1_char hgmem
    have h1 : sortDays g.days = sg.days := by
      rw [sortDays_eq_daysOfList hchar, hgs, hes, hgd, hedur]
      exact hdays
    have hk2 : key2 g = (sg.days, durKey sg.durationMin) := by
      unfold key2
      rw [h1, hgd, hedur]
    exact (htimes s).2 ⟨g, hgmem, hk2, by rw [hgs, hes]⟩

theorem builtOf_timesOfFinset {l : List WindowEntry} {b : BuiltEntry}
    (hb : b ∈ builtOfEntries l) :
    timesOfFinset (tripleFinset l) b.dayOfWeek b.duration = b.timeOfDay.toFinset := by
  apply Finset.ext
  intro s
  rw [List.mem_toFinset]
  unfold timesOfFinset
  simp only [Finset.mem_image, Finset.mem_filter]
  rw [builtOf_times hb s]
  constructor
  · rintro ⟨⟨d₀, s₀, q₀⟩, ⟨hS, hq, hdays⟩, hst⟩
    simp only at hst hq hdays
    subst hst
    subst hq
    exact ⟨d₀, hS, hdays⟩
  · rintro ⟨d, hS, hdays⟩
    exact ⟨(d, s, b.duration), ⟨hS, rfl, hdays⟩, rfl⟩

theorem canonSet_builtOf (l : List WindowEntry) :
    canonSet (builtOfEntries l) = canonSpec (tripleFinset l) := by
  apply Finset.ext
  intro x
  unfold canonSet canonSpec
  simp only [List.mem_toFinset, List.mem_map, Finset.mem_image]
  constructor
  · rintro ⟨b, hb, rfl⟩
    obtain ⟨htne, hnd, hdne⟩ := builtOf_wellformed hb
    obtain ⟨s₀, hs₀⟩ := List.exists_mem_of_ne_nil _ htne
    obtain ⟨d₀, hd₀S, hdaysEq⟩ := (builtOf_times hb s₀).1 hs₀
    refine ⟨(d₀, s₀, b.duration), hd₀S, ?_⟩
    simp only
    rw [hdaysEq, builtOf_timesOfFinset hb]
    rfl
  · rintro ⟨⟨d, s, q⟩, hS, rfl⟩
    obtain ⟨e, hel, hed, hes, hedur⟩ := mem_tripleFinset.1 hS
    obtain ⟨b, hb, hdb, hsb, hdur⟩ := builtOf_of_entry hel
    refine ⟨b, hb, ?_⟩
    have hq : b.duration = q := by rw [hdur, hedur]
    have hsmem : s ∈ b.timeOfDay := by rw [← hes]; exact hsb
    have hdays : b.dayOfWeek = daysOfList (tripleFinset l) s q := by
      rw [← hq]
      exact builtOf_content hb hsmem
    unfold canonEntry
    rw [← hdays, ← hq, builtOf_timesOfFinset hb]

/-! ### C5 -/

/-- C5: the encoder is order-independent: for any iteration order of the
seven days and any per-day window order of the same `WeekSchedule` (same
enabled flags, per-day window lists equal up to permutation), the emitted
recurring-rule entries agree as a set (the `timeOfDay` lists compared as
sets, the day lists already canonically sorted by the encoder). -/
theorem encode_order_independent (order1 order2 : List Day) (w1 w2 : WeekSchedule)
    (h1 : order1.Perm ORDERED_DAYS) (h2 : order2.Perm ORDERED_DAYS)
    (hw : ∀ d ∈ ORDERED_DAYS, (w1.get d).enabled = (w2.get d).enabled ∧
      (w1.get d).timeWindows.Perm (w2.get d).timeWindows) :
    canonSet (buildAvailabilityExtensionsWith order1 w1) =
      canonSet (buildAvailabilityExtensionsWith order2 w2) := by
  rw [buildWith_eq_builtOf, buildWith_eq_builtOf, canonSet_builtOf, canonSet_builtOf]
  have hperm : (windowEntries order1 w1).Perm (windowEntries order2 w2) := by
    have ho : order1.Perm order2 := h1.trans h2.symm
    unfold windowEntries
    refine (List.Perm.flatMap_right _ ho).trans ?_
    refine List.Perm.bind_left _ fun d hd => ?_
    have hwd := hw d (day_mem_ORDERED d)
    by_cases hen : (w1.get d).enabled = true
    · rw [if_pos hen, if_pos (hwd.1 ▸ hen)]
      exact hwd.2.map _
    · rw [if_neg hen, if_neg (hwd.1 ▸ hen)]
  have : tripleFinset (windowEntries order1 w1) = tripleFinset (windowEntries order2 w2) := by
    unfold tripleFinset
    exact List.toFinset_eq_of_perm _ _ (hperm.map entryTriple)
  rw [this]

theorem encode_order_independent_witness :
    ([Day.sun, Day.sat, Day.fri, Day.thu, Day.wed, Day.tue, Day.mon].Perm ORDERED_DAYS) ∧
    canonSet (buildAvailabilityExtensionsWith ORDERED_DAYS weekPermA) =
      canonSet (buildAvailabilityExtensionsWith
        [Day.sun, Day.sat, Day.fri, Day.thu, Day.wed, Day.tue, Day.mon] weekPermB) :=
  ⟨by decide,
    encode_order_independent ORDERED_DAYS
      [Day.sun, Day.sat, Day.fri, Day.thu, Day.wed, Day.tue, Day.mon]
      weekPermA weekPermB (by decide) (by decide) (by decide)⟩

/-! ### The day loop in closed form -/

/-- Unfolding equation of the generator's `while (current <= end)` loop. -/
theorem dayLoop_unfold (endT current : ℤ) :
    dayLoop endT current =
      if current ≤ endT then current :: dayLoop endT (current + dayMs) else [] := by
  rw [dayLoop]

/-- Closed form of a terminated run of the day loop: entered at `current ≤
endT`, it visits exactly the arithmetic progression of day starts. -/
theorem dayLoop_closed (n : ℕ) : ∀ current endT : ℤ,
    current ≤ endT → (endT - current).toNat / 86400000 = n →
    dayLoop endT current = (List.range (n + 1)).map (fun k : ℕ => current + (k : ℤ) * dayMs) := by
  induction n with
  | zero =>
    intro current endT h hn
    have hstop : ¬ current + dayMs ≤ endT := by
      simp only [dayMs] at hn ⊢
      omega
    rw [dayLoop_unfold, if_pos h, dayLoop_unfold, if_neg hstop, List.range_succ]
    simp
  | succ n ih =>
    intro current endT h hn
    have hnext : current + dayMs ≤ endT := by
      simp only [dayMs] at hn ⊢
      omega
    have hn' : (endT - (current + dayMs)).toNat / 86400000 = n := by
      simp only [dayMs] at hn ⊢
      omega
    rw [dayLoop_unfold, if_pos h, ih (current + dayMs) endT hnext hn']
    conv_rhs => rw [List.range_succ_eq_map]
    simp only [List.map_cons, List.map_map, Nat.cast_zero, zero_mul, add_zero]
    congr 1
    refine List.map_congr_left fun k _ => ?_
    simp only [Function.comp_apply]
    push_cast
    ring

/-- Closed form of the day loop for arbitrary arguments. -/
theorem dayLoop_eq (endT current : ℤ) :
    dayLoop endT current =
      if current ≤ endT then
        (List.range ((endT - current).toNat / 86400000 + 1)).map
          (fun k : ℕ => current + (k : ℤ) * dayMs)
      else [] := by
  by_cases h : current ≤ endT
  · rw [if_pos h]
    exact dayLoop_closed _ current endT h rfl
  · rw [if_neg h, dayLoop_unfold, if_neg h]

/-- The source's day loop over a range coincides with the spec's direct day
enumeration. -/
theorem dayLoop_eq_specDayStarts (range : ParamsRange) :
    dayLoop (endOfDayOf range.endTime) (midnightOf range.start) = specDayStarts range := by
  rw [dayLoop_eq]
  rfl

/-- The generator equals its spec-side description on every input. -/
theorem generate_eq_spec (scheduleRef : String) (blocks : List (List SubExt))
    (range : ParamsRange) :
    generateAvailabilitySlots scheduleRef blocks range =
      generateAvailabilitySlotsSpec scheduleRef blocks range := by
  unfold generateAvailabilitySlots generateAvailabilitySlotsSpec
  rw [dayLoop_eq_specDayStarts]

/-! ### C7 -/

/-- C7: the visual slot generator agrees with the spec's description on
every configuration and range: with no default (service-type-free) block the
result is empty; otherwise it emits, for each calendar day enumerated for
the range and each availability entry whose day set holds that day's
weekday, one slot per window anchored at that day's midnight plus the
window's start with the window's duration; and every emitted slot is a free
virtual slot (`status = "free"`, no `id`). -/
theorem generator_matches_spec (scheduleRef : String) (blocks : List (List SubExt))
    (range : ParamsRange) :
    (defaultBlock blocks = none → generateAvailabilitySlots scheduleRef blocks range = []) ∧
    generateAvailabilitySlots scheduleRef blocks range =
      generateAvailabilitySlotsSpec scheduleRef blocks range ∧
    ∀ s ∈ generateAvailabilitySlots scheduleRef blocks range,
      s.status = "free" ∧ s.id = none := by
  refine ⟨fun h => ?_, generate_eq_spec scheduleRef blocks range, fun s hs => ?_⟩
  · unfold generateAvailabilitySlots
    rw [h]
  · unfold generateAvailabilitySlots at hs
    cases hdef : defaultBlock blocks with
    | none =>
      simp only [hdef, List.not_mem_nil] at hs
    | some defaultExt =>
      simp only [hdef] at hs
      by_cases hlen : (availSubs defaultExt).length = 0
      · rw [if_pos hlen] at hs
        simp at hs
      · rw [if_neg hlen] at hs
        simp only [List.mem_flatMap] at hs
        obtain ⟨cur, -, entry, -, hsw⟩ := hs
        by_cases hdow : dowOf cur ∈ entry.days
        · rw [if_pos hdow] at hsw
          simp only [List.mem_map] at hsw
          obtain ⟨w, -, rfl⟩ := hsw
          exact ⟨rfl, rfl⟩
        · rw [if_neg hdow] at hsw
          simp at hsw

theorem generator_matches_spec_witness :
    defaultBlock [[SubExt.serviceTypeSub "x"]] = none ∧
    generateAvailabilitySlots "s" [[SubExt.serviceTypeSub "x"]] ⟨0, dayMs⟩ = [] :=
  ⟨by decide,
    (generator_matches_spec "s" [[SubExt.serviceTypeSub "x"]] ⟨0, dayMs⟩).1 (by decide)⟩

/-! ### C9 -/

/-- Membership in the day loop: exactly the instants a whole number of days
past `current`, up to and including `endT`. -/
theorem mem_dayLoop {endT current t : ℤ} :
    t ∈ dayLoop endT current ↔
      current ≤ t ∧ t ≤ endT ∧ (86400000 : ℤ) ∣ (t - current) := by
  rw [dayLoop_eq]
  by_cases h : current ≤ endT
  · rw [if_pos h]
    simp only [List.mem_map, List.mem_range]
    constructor
    · rintro ⟨k, hk, rfl⟩
      simp only [dayMs] at hk ⊢
      refine ⟨by omega, by omega, ⟨(k : ℤ), by ring⟩⟩
    · rintro ⟨h1, h2, c, hc⟩
      simp only [dayMs]
      exact ⟨c.toNat, by omega, by omega⟩
  · rw [if_neg h]
    simp only [List.not_mem_nil, false_iff]
    rintro ⟨h1, h2, -⟩
    exact h (h1.trans h2)

/-- Midnight of an exact-midnight instant is that instant. -/
theorem midnightOf_mul (D : ℤ) : midnightOf (D * dayMs) = D * dayMs := by
  unfold midnightOf dayMs
  rw [Int.fdiv_eq_ediv _ (by norm_num)]
  omega

/-- C9: the day loop runs from local midnight of the range start through the
last millisecond (`23:59:59.999`) of the range end's day inclusive, so a
range whose end instant is exactly midnight of day `D` (an exclusive end
boundary) still enumerates day `D`, and every window of every availability
entry active on `D`'s weekday still yields its slot for day `D`. -/
theorem end_boundary_day_included (scheduleRef : String) (blocks : List (List SubExt))
    (range : ParamsRange) (D : ℤ)
    (hend : range.endTime = D * dayMs)
    (hstart : midnightOf range.start ≤ D * dayMs) :
    D * dayMs ∈ dayLoop (endOfDayOf range.endTime) (midnightOf range.start) ∧
    ∀ defaultExt, defaultBlock blocks = some defaultExt →
      (availSubs defaultExt).length ≠ 0 →
      ∀ entry ∈ (availSubs defaultExt).map toGenEntry, dowOf (D * dayMs) ∈ entry.days →
        ∀ w ∈ entry.windows,
          mkSlot scheduleRef (D * dayMs) w ∈
            generateAvailabilitySlots scheduleRef blocks range := by
  have hmem : D * dayMs ∈ dayLoop (endOfDayOf range.endTime) (midnightOf range.start) := by
    rw [mem_dayLoop]
    refine ⟨hstart, ?_, ?_⟩
    · rw [hend]
      unfold endOfDayOf
      rw [midnightOf_mul]
      simp only [dayMs]
      omega
    · unfold midnightOf
      simp only [dayMs]
      exact ⟨D - range.start.fdiv 86400000, by ring⟩
  refine ⟨hmem, ?_⟩
  intro defaultExt hdef hlen entry hentry hdow w hw
  unfold generateAvailabilitySlots
  simp only [hdef]
  rw [if_neg hlen]
  simp only [List.mem_flatMap]
  exact ⟨D * dayMs, hmem, entry, hentry, by
    rw [if_pos hdow]
    exact List.mem_map_of_mem _ hw⟩

theorem end_boundary_day_included_witness :
    ((⟨0, 2 * dayMs⟩ : ParamsRange).endTime = 2 * dayMs ∧
      midnightOf (⟨0, 2 * dayMs⟩ : ParamsRange).start ≤ 2 * dayMs) ∧
    mkSlot "s" (2 * dayMs) (540, 480) ∈
      generateAvailabilitySlots "s"
        [[SubExt.availabilitySub (some ⟨some [Day.tue], some [540], some 480⟩)]]
        ⟨0, 2 * dayMs⟩ :=
  ⟨⟨rfl, by decide⟩,
    (end_boundary_day_included "s"
        [[SubExt.availabilitySub (some ⟨some [Day.tue], some [540], some 480⟩)]]
        ⟨0, 2 * dayMs⟩ 2 rfl (by decide)).2
      _ rfl (by decide)
      (toGenEntry (some ⟨some [Day.tue], some [540], some 480⟩)) (by decide)
      (by decide) (540, 480) (by decide)⟩
